import Mathlib

/-!
# UART command console (LiPow firmware)

A shallow embedding of `Middlewares/Third_Party/FreeRTOS_CLI/Source/UARTCommandConsole.c`:
the console task `prvUARTCommandConsoleTask`, the transmit routine `UART_Transfer`
and the completion callback `HAL_UART_TxCpltCallback`.

Conventions.
* A C `char` / `signed char` value is an `Int`; character constants are written as
  their ASCII codes (`'\n'` = 10, `'\r'` = 13, `'\b'` = 8, `' '` = 32, `'~'` = 126).
* The two static arrays `cInputString` and `cLastInputString` are lists of
  `cmdMAX_INPUT_SIZE` bytes.  Any access outside an array is reported as
  `Fault.outOfBounds` (undefined behaviour in C).
* The environment (mutex, DMA peripheral, completion interrupt, command interpreter)
  is a parameter.  A loop that waits for the environment and is not released by it
  is reported as `Fault.diverge`.
* Every call that leaves the translation unit is logged in a trace of `Event`s.
-/

namespace UARTCommandConsole

/-! ## Constants -/

/-- Dimensions the buffer into which input characters are placed. -/
def cmdMAX_INPUT_SIZE : Nat := 50

/-- DEL acts as a backspace. -/
def cmdASCII_DEL : Int := 0x7F

/-- The characters of a string literal as C `char` values (without the closing NUL). -/
def lit (s : String) : List Int := s.data.map fun ch => (ch.toNat : Int)

/-- The message sent after the output of every command. -/
def pcEndOfOutputMessage : List Int :=
  lit "\r\n[Press ENTER to execute the previous command again]\r\n>"

/-- The line break sent after a terminator has been echoed. -/
def pcNewLine : List Int := lit "\r\n"

/-! ## C strings -/

/-- The C string held in an array: the bytes before the first NUL, or `none` when the
array holds no NUL (reading the string would run past the end of the array). -/
def cstr : List Int → Option (List Int)
  | [] => none
  | c :: cs => if c = 0 then some [] else (cstr cs).map (c :: ·)

/-- The function `strlen` on memory that consists of the bytes `mem` followed by a NUL
(a string literal, or the interpreter's output buffer). -/
def strlen (mem : List Int) : Nat := (mem.takeWhile (· ≠ 0)).length

/-- The function `strcpy(dst, src)` on two arrays: the new contents of `dst`, or `none`
when `src` holds no NUL or the string with its NUL does not fit into `dst`. -/
def strcpy (dst src : List Int) : Option (List Int) :=
  match cstr src with
  | none => none
  | some s =>
    if s.length + 1 ≤ dst.length then some (s ++ 0 :: dst.drop (s.length + 1)) else none

/-- The cast `(unsigned short)` applied to a `size_t`. -/
def toU16 (n : Nat) : Nat := n % 65536

/-! ## Outcomes -/

/-- The ways in which the code can fail to proceed. -/
inductive Fault
  | outOfBounds
  | diverge
  deriving DecidableEq, Repr

/-- The result of running a piece of code: it completes in a state, or it stops with a
fault in the state reached so far. -/
inductive Outcome (S : Type)
  | ok (st : S)
  | fault (f : Fault) (st : S)
  deriving DecidableEq, Repr

/-- Sequential composition. -/
def Outcome.andThen {S : Type} (o : Outcome S) (k : S → Outcome S) : Outcome S :=
  match o with
  | .ok st => k st
  | .fault f st => .fault f st

/-- The state in which the code completed or stopped. -/
def Outcome.state {S : Type} : Outcome S → S
  | .ok st => st
  | .fault _ st => st

/-- Whether the code completed. -/
def Outcome.isOk {S : Type} : Outcome S → Bool
  | .ok _ => true
  | .fault _ _ => false

/-! ## Transmit channel -/

/-- The peripheral a UART handle refers to (`huart->Instance`).  Only the comparison
with `USART1` matters. -/
inductive UsartInstance
  | USART1
  | other (n : Nat)
  deriving DecidableEq, Repr

/-- The calls that leave the translation unit, and the entry of `UART_Transfer`. -/
inductive Event
  /-- Entry of `UART_Transfer(pData, Size)`. -/
  | uartTransfer (pData : List Int) (Size : Nat)
  /-- The call `xSemaphoreTake(xTxMutex_CLI, cmdMAX_MUTEX_WAIT)`; `ok` is `== pdPASS`. -/
  | semTake (ok : Bool)
  /-- The call `HAL_UART_Transmit_DMA(&huart1, pData, Size)`; `ok` is `== HAL_OK`. -/
  | transmitDMA (pData : List Int) (Size : Nat) (ok : Bool)
  /-- The completion interrupt ran `HAL_UART_TxCpltCallback` for a handle. -/
  | txCplt (inst : UsartInstance)
  /-- The call `xSemaphoreGive(xTxMutex_CLI)`. -/
  | semGive
  /-- The call `FreeRTOS_CLIProcessCommand(cInputString, pcOutputString, ...)`; `line` is
  the string at `cInputString`. -/
  | processCommand (line : List Int)
  deriving DecidableEq, Repr

/-- The file-scope state: the flag `sUart_tx_ready`, the number of `UART_Transfer`
calls made so far (which selects the environment of the next call) and the trace. -/
structure Uart where
  sUart_tx_ready : Nat
  nTransfers : Nat
  trace : List Event
  deriving DecidableEq, Repr

/-- What the environment does during one call of `UART_Transfer`. -/
structure TxEnv where
  /-- Whether `xSemaphoreTake` returns `pdPASS`. -/
  take : Bool
  /-- The results of the successive `HAL_UART_Transmit_DMA` calls (`true` is `HAL_OK`). -/
  issue : List Bool
  /-- The completion interrupts delivered while the routine polls `sUart_tx_ready`. -/
  irqs : List UsartInstance
  deriving DecidableEq, Repr

/-- Appends an event to the trace. -/
def Uart.log (u : Uart) (e : Event) : Uart := { u with trace := u.trace ++ [e] }

/-- The callback `HAL_UART_TxCpltCallback`. -/
def HAL_UART_TxCpltCallback (huartInstance : UsartInstance) (u : Uart) : Uart :=
  if huartInstance = UsartInstance.USART1 then { u with sUart_tx_ready := 1 } else u

/-- The loop `while (HAL_UART_Transmit_DMA(&huart1, pData, Size) != HAL_OK);`. -/
def issueLoop (pData : List Int) (Size : Nat) : List Bool → Uart → Outcome Uart
  | [], u => .fault .diverge u
  | r :: rs, u =>
    let u := u.log (.transmitDMA pData Size r)
    if r then .ok u else issueLoop pData Size rs u

/-- The loop `while (sUart_tx_ready != 1);`, with the completion interrupts that arrive
between two reads of the flag. -/
def spinLoop : List UsartInstance → Uart → Outcome Uart
  | [], u => if u.sUart_tx_ready ≠ 1 then .fault .diverge u else .ok u
  | i :: rest, u =>
    if u.sUart_tx_ready ≠ 1 then spinLoop rest (HAL_UART_TxCpltCallback i (u.log (.txCplt i)))
    else .ok u

/-- The routine `UART_Transfer(pData, Size)`; `pData` is the memory the pointer refers
to and `Size` the `uint16_t` length. -/
def UART_Transfer (env : TxEnv) (pData : List Int) (Size : Nat) (u : Uart) : Outcome Uart :=
  let u := { u with nTransfers := u.nTransfers + 1,
                    trace := u.trace ++ [.uartTransfer pData Size, .semTake env.take] }
  if env.take then
    let u := { u with sUart_tx_ready := 0 }
    (issueLoop pData Size env.issue u).andThen fun u =>
    (spinLoop env.irqs u).andThen fun u =>
    .ok (u.log .semGive)
  else .ok u

/-! ## Console task -/

/-- One call of the command interpreter: its next internal state, the contents it left
in the output buffer (followed by a NUL), and whether `xReturned != pdFALSE`. -/
structure CmdResult (σ : Type) where
  next : σ
  out : List Int
  more : Bool

/-- The command interpreter `FreeRTOS_CLIProcessCommand`, a parameter of the model: a
function of its internal state and of the command line. -/
abbrev Interpreter (σ : Type) := σ → List Int → CmdResult σ

/-- The state of the console task: its local variables and static arrays, the
interpreter and the file-scope state. -/
structure Console (σ : Type) where
  ucInputIndex : Nat
  cInputString : List Int
  cLastInputString : List Int
  cli : σ
  uart : Uart

/-- A `UART_Transfer` call made by the console task; the environment of the call is
chosen by the number of calls made before. -/
def transfer {σ : Type} (world : Nat → TxEnv) (pData : List Int) (Size : Nat)
    (st : Console σ) : Outcome (Console σ) :=
  match UART_Transfer (world st.uart.nTransfers) pData Size st.uart with
  | .ok u => .ok { st with uart := u }
  | .fault f u => .fault f { st with uart := u }

/-- The store `cInputString[i] = c`. -/
def storeInput {σ : Type} (i : Nat) (c : Int) (st : Console σ) : Outcome (Console σ) :=
  if i < st.cInputString.length then .ok { st with cInputString := st.cInputString.set i c }
  else .fault .outOfBounds st

/-- The `do ... while (xReturned != pdFALSE)` loop of the console task; `fuel` bounds
the number of interpreter calls. -/
def drainLoop {σ : Type} (world : Nat → TxEnv) (cli : Interpreter σ) :
    Nat → Console σ → Outcome (Console σ)
  | 0, st => .fault .diverge st
  | fuel + 1, st =>
    match cstr st.cInputString with
    | none => .fault .outOfBounds st
    | some line =>
      let r := cli st.cli line
      let st := { st with cli := r.next, uart := st.uart.log (.processCommand line) }
      (transfer world r.out (toU16 (strlen r.out)) st).andThen fun st =>
      if r.more then drainLoop world cli fuel st else .ok st

/-- The statement `if (ucInputIndex == 0) strcpy(cInputString, cLastInputString);`. -/
def repeatLast {σ : Type} (st : Console σ) : Outcome (Console σ) :=
  if st.ucInputIndex = 0 then
    match strcpy st.cInputString st.cLastInputString with
    | none => .fault .outOfBounds st
    | some b => .ok { st with cInputString := b }
  else .ok st

/-- The branch of the console task taken for `'\n'` and `'\r'`. -/
def lineComplete {σ : Type} (world : Nat → TxEnv) (cli : Interpreter σ) (fuel : Nat)
    (st : Console σ) : Outcome (Console σ) :=
  (transfer world pcNewLine (toU16 (strlen pcNewLine)) st).andThen fun st =>
  (repeatLast st).andThen fun st =>
  (drainLoop world cli fuel st).andThen fun st =>
  match strcpy st.cLastInputString st.cInputString with
  | none => .fault .outOfBounds st
  | some b =>
    transfer world pcEndOfOutputMessage (toU16 (strlen pcEndOfOutputMessage))
      { st with cLastInputString := b, ucInputIndex := 0,
                cInputString := List.replicate cmdMAX_INPUT_SIZE 0 }

/-- The branch of the console task taken for every other character. -/
def lineEdit {σ : Type} (cRxedChar : Int) (st : Console σ) : Outcome (Console σ) :=
  if cRxedChar = 13 then .ok st
  else if cRxedChar = 8 ∨ cRxedChar = cmdASCII_DEL then
    if st.ucInputIndex > 0 then
      storeInput (st.ucInputIndex - 1) 0 { st with ucInputIndex := st.ucInputIndex - 1 }
    else .ok st
  else if 32 ≤ cRxedChar ∧ cRxedChar ≤ 126 then
    if st.ucInputIndex < cmdMAX_INPUT_SIZE then
      (storeInput st.ucInputIndex cRxedChar st).andThen fun st =>
      .ok { st with ucInputIndex := (st.ucInputIndex + 1) % 256 }
    else .ok st
  else .ok st

/-- One iteration of the `for (;;)` loop of `prvUARTCommandConsoleTask`, for the
character `cRxedChar` delivered by the receive loop. -/
def step {σ : Type} (world : Nat → TxEnv) (cli : Interpreter σ) (fuel : Nat)
    (cRxedChar : Int) (st : Console σ) : Outcome (Console σ) :=
  (transfer world [cRxedChar] 1 st).andThen fun st =>
  if cRxedChar = 10 ∨ cRxedChar = 13 then lineComplete world cli fuel st
  else lineEdit cRxedChar st

/-- The iterations of the `for (;;)` loop for a sequence of received characters. -/
def run {σ : Type} (world : Nat → TxEnv) (cli : Interpreter σ) (fuel : Nat) :
    List Int → Console σ → Outcome (Console σ)
  | [], st => .ok st
  | c :: cs, st => (step world cli fuel c st).andThen (run world cli fuel cs)

/-- The state of the task when it first waits for a character: index 0, both static
arrays zero, `sUart_tx_ready` as `u` left it. -/
def initial {σ : Type} (s0 : σ) (u : Uart) : Console σ :=
  { ucInputIndex := 0
    cInputString := List.replicate cmdMAX_INPUT_SIZE 0
    cLastInputString := List.replicate cmdMAX_INPUT_SIZE 0
    cli := s0
    uart := u }

/-! ## Observations on traces -/

/-- The lines passed to the interpreter, in call order. -/
def dispatched : List Event → List (List Int)
  | [] => []
  | .processCommand line :: es => line :: dispatched es
  | _ :: es => dispatched es

/-- The calls made by the console task itself (`UART_Transfer` and the interpreter), in
call order. -/
def calls : List Event → List Event
  | [] => []
  | .uartTransfer p n :: es => .uartTransfer p n :: calls es
  | .processCommand line :: es => .processCommand line :: calls es
  | _ :: es => calls es

/-- The bytes handed to the DMA peripheral by the accepted `HAL_UART_Transmit_DMA`
calls, in order. -/
def wire : List Event → List Int
  | [] => []
  | .transmitDMA p n true :: es => p.take n ++ wire es
  | _ :: es => wire es

/-- An environment in which a `UART_Transfer` call returns: the mutex wait times out,
or the peripheral accepts the transfer and the completion of `USART1` is signalled. -/
def TxEnv.live (e : TxEnv) : Prop :=
  e.take = false ∨ (true ∈ e.issue ∧ UsartInstance.USART1 ∈ e.irqs)

/-- An environment in which a `UART_Transfer` call obtains the mutex and returns. -/
def TxEnv.sends (e : TxEnv) : Prop :=
  e.take = true ∧ true ∈ e.issue ∧ UsartInstance.USART1 ∈ e.irqs

instance TxEnv.decidableLive (e : TxEnv) : Decidable e.live :=
  inferInstanceAs (Decidable (e.take = false ∨ (true ∈ e.issue ∧ UsartInstance.USART1 ∈ e.irqs)))

instance TxEnv.decidableSends (e : TxEnv) : Decidable e.sends :=
  inferInstanceAs (Decidable (e.take = true ∧ true ∈ e.issue ∧ UsartInstance.USART1 ∈ e.irqs))

/-- A simple environment: the mutex is free, the peripheral accepts at once and the
completion interrupt arrives. -/
def idealEnv : TxEnv := { take := true, issue := [true], irqs := [UsartInstance.USART1] }

/-- An interpreter that answers every line with "OK" in a single chunk. -/
def okInterpreter : Interpreter Unit := fun _ _ => { next := (), out := lit "OK", more := false }

/-- The power-on file-scope state: `sUart_tx_ready` is 0 and nothing has been sent. -/
def uart0 : Uart := { sUart_tx_ready := 0, nTransfers := 0, trace := [] }

/-! ## Reference definitions and predicates used in the statements -/

/-- One step of the reference line editor, following the words of the specification: a
character in 0x20..0x7E is appended if the line has fewer than 50 characters and dropped
otherwise, 0x08 and 0x7F remove the last character if there is one, every other
character is ignored. -/
def refStep (l : List Int) (c : Int) : List Int :=
  if 0x20 ≤ c ∧ c ≤ 0x7E then (if l.length < 50 then l ++ [c] else l)
  else if c = 0x08 ∨ c = 0x7F then l.dropLast
  else l

/-- The reference line editor applied to a sequence of characters, from the empty line. -/
def refLine (s : List Int) : List Int := s.foldl refStep []

/-- The console state in which the input line is `l`: the index is the length of `l`
and the array holds `l` followed by zeros. -/
def holding {σ : Type} (l : List Int) (st : Console σ) : Console σ :=
  { st with ucInputIndex := l.length
            cInputString := l ++ List.replicate (cmdMAX_INPUT_SIZE - l.length) 0 }

/-- The console state after the echoes of the characters `s`. -/
def echoed {σ : Type} (world : Nat → TxEnv) (s : List Int) (st : Console σ) : Console σ :=
  s.foldl (fun st c => (transfer world [c] 1 st).state) st

/-- The interpreter state after `j` calls for the line `line`. -/
def cliAfter {σ : Type} (cli : Interpreter σ) (line : List Int) : Nat → σ → σ
  | 0, s => s
  | j + 1, s => cliAfter cli line j (cli s line).next

/-- The result of call number `j + 1` of the interpreter for the line `line`. -/
def resultAt {σ : Type} (cli : Interpreter σ) (line : List Int) (s : σ) (j : Nat) : CmdResult σ :=
  cli (cliAfter cli line j s) line

/-- The interpreter reports more output for the first `k` calls for `line` and no more
output on call `k + 1`. -/
def DrainsIn {σ : Type} (cli : Interpreter σ) (line : List Int) (s : σ) (k : Nat) : Prop :=
  (∀ j, j < k → (resultAt cli line s j).more = true) ∧ (resultAt cli line s k).more = false

instance decidableDrainsIn {σ : Type} (cli : Interpreter σ) (line : List Int) (s : σ) (k : Nat) :
    Decidable (DrainsIn cli line s k) :=
  inferInstanceAs (Decidable ((∀ j, j < k → (resultAt cli line s j).more = true) ∧
    (resultAt cli line s k).more = false))

/-- The calls of a drain loop with `k + 1` rounds: an interpreter call for `line`, then
the transfer of the output buffer it left. -/
def drainCalls {σ : Type} (cli : Interpreter σ) (line : List Int) (s : σ) (k : Nat) : List Event :=
  ((List.range (k + 1)).map fun j =>
    [Event.processCommand line,
     Event.uartTransfer (resultAt cli line s j).out (toU16 (strlen (resultAt cli line s j).out))]).flatten

/-- The bytes sent by a drain loop with `k + 1` rounds when no transfer is dropped. -/
def drainBytes {σ : Type} (cli : Interpreter σ) (line : List Int) (s : σ) (k : Nat) : List Int :=
  ((List.range (k + 1)).map fun j =>
    (resultAt cli line s j).out.take (toU16 (strlen (resultAt cli line s j).out))).flatten

/-- The line a terminator dispatches in state `st`: the string in `cLastInputString`
when the index is 0, the string in `cInputString` otherwise; `none` when that array
holds no NUL. -/
def pendingLine {σ : Type} (st : Console σ) : Option (List Int) :=
  if st.ucInputIndex = 0 then cstr st.cLastInputString else cstr st.cInputString

/-- An interpreter that answers every line with three chunks. -/
def chunkInterpreter : Interpreter Nat :=
  fun n _ => { next := n + 1, out := lit "chunk", more := decide (n % 3 < 2) }

/-- The bound on the index and the size of the input array. -/
def InBounds {σ : Type} (st : Console σ) : Prop :=
  st.ucInputIndex ≤ cmdMAX_INPUT_SIZE ∧ st.cInputString.length = cmdMAX_INPUT_SIZE

instance decidableInBounds {σ : Type} (st : Console σ) : Decidable (InBounds st) :=
  inferInstanceAs (Decidable (st.ucInputIndex ≤ cmdMAX_INPUT_SIZE ∧
    st.cInputString.length = cmdMAX_INPUT_SIZE))


/-- The line most recently passed to the interpreter according to a trace, or the empty
line when no interpreter call has been made. -/
def lastLine (tr : List Event) : List Int := ((dispatched tr).getLast?).getD []

/-- Every line of the input that a terminator completes has fewer than 50 characters;
`l` is the line typed so far. -/
def shortLines : List Int → List Int → Bool
  | _, [] => true
  | l, c :: cs =>
    if c = 10 ∨ c = 13 then decide (l.length < 50) && shortLines [] cs
    else shortLines (refStep l c) cs


/-! ## Task start -/

/-- The welcome message. -/
def pcWelcomeMessage : List Int :=
  lit "\r\nStarting LiPow.\r\nType Help to view a list of registered commands.\r\n"

/-- The cast `(uint8_t)`. -/
def toU8 (n : Nat) : Nat := n % 256

/-- The decimal digits of `n`, most significant first, as printed by the conversion
`%u`; `fuel` bounds the number of digits. -/
def decimalDigits : Nat → Nat → List Int
  | 0, _ => []
  | fuel + 1, n =>
    if n < 10 then [48 + (n : Int)]
    else decimalDigits fuel (n / 10) ++ [48 + ((n % 10 : Nat) : Int)]

/-- The text printed by `%u` for `n`. -/
def decimal (n : Nat) : List Int := decimalDigits (n + 1) n

/-- The text described by the format "%sFirmware Version: %u.%u\r\n\r\n>" with the
arguments `pcWelcomeMessage`, `(uint8_t) LIPOW_MAJOR_VERSION` and
`(uint8_t) LIPOW_MINOR_VERSION`.  The two version constants are parameters. -/
def bannerText (major minor : Nat) : List Int :=
  pcWelcomeMessage ++ lit "Firmware Version: " ++ decimal (toU8 major) ++ lit "." ++
    decimal (toU8 minor) ++ lit "\r\n\r\n>"

/-- The string that `snprintf(buf, size, ...)` leaves in `buf` for a formatted text
without NUL: at most `size - 1` characters of it (followed by a NUL). -/
def snprintf (size : Nat) (text : List Int) : List Int := text.take (size - 1)

/-- The statements of `prvUARTCommandConsoleTask` before the loop: the banner is
formatted into the 100-byte array `firmware_verion` and sent. -/
def taskStart {σ : Type} (world : Nat → TxEnv) (major minor : Nat) (st : Console σ) :
    Outcome (Console σ) :=
  let firmware_verion := snprintf 100 (bannerText major minor)
  transfer world firmware_verion (toU16 (strlen firmware_verion)) st

/-- The task `prvUARTCommandConsoleTask` for a sequence of received characters: the
statements before the loop, then the iterations of the loop. -/
def prvUARTCommandConsoleTask {σ : Type} (world : Nat → TxEnv) (cli : Interpreter σ)
    (fuel : Nat) (major minor : Nat) (input : List Int) (s0 : σ) (u : Uart) :
    Outcome (Console σ) :=
  (taskStart world major minor (initial s0 u)).andThen (run world cli fuel input)

/-- The calls that the loop of the task makes: an interpreter call, the echo of one
character, the line break, the trailer, or the transfer of the interpreter's output
buffer. -/
def LoopCall {σ : Type} (cli : Interpreter σ) (e : Event) : Prop :=
  (∃ line, e = Event.processCommand line) ∨
  (∃ c, e = Event.uartTransfer [c] 1) ∨
  e = Event.uartTransfer pcNewLine (toU16 (strlen pcNewLine)) ∨
  e = Event.uartTransfer pcEndOfOutputMessage (toU16 (strlen pcEndOfOutputMessage)) ∨
  (∃ s line, e = Event.uartTransfer (cli s line).out (toU16 (strlen (cli s line).out)))


/-! ## Comparing two runs -/

/-- The number of `UART_Transfer` calls in a list of calls. -/
def txCount : List Event → Nat
  | [] => 0
  | .uartTransfer _ _ :: es => txCount es + 1
  | _ :: es => txCount es

/-- The bytes sent by a list of calls when the `UART_Transfer` call number `i` (counted
from `start`) obtains the mutex exactly if `take i`: the blocks of the calls that obtain
it, in call order, the other calls left out. -/
def sentBytes (take : Nat → Bool) : Nat → List Event → List Int
  | _, [] => []
  | i, .uartTransfer p n :: es => (if take i then p.take n else []) ++ sentBytes take (i + 1) es
  | i, _ :: es => sentBytes take i es

/-- Two console states with the same index, arrays and interpreter state. -/
def SameTask {σ : Type} (a b : Console σ) : Prop :=
  a.ucInputIndex = b.ucInputIndex ∧ a.cInputString = b.cInputString ∧
  a.cLastInputString = b.cLastInputString ∧ a.cli = b.cli

/-- The state `st1` is reached from `st` by making the calls `cs`, and the bytes sent on
the way are those of the transfers in `cs` that obtained the mutex. -/
def Reaches {σ : Type} (world : Nat → TxEnv) (st st1 : Console σ) (cs : List Event) : Prop :=
  calls st1.uart.trace = calls st.uart.trace ++ cs ∧
  st1.uart.nTransfers = st.uart.nTransfers + txCount cs ∧
  wire st1.uart.trace = wire st.uart.trace ++
    sentBytes (fun i => (world i).take) st.uart.nTransfers cs

/-- Two outcomes, reached in two environments from `st1` and `st2`, that agree: both
completed or both stopped, with the same index, arrays and interpreter state, by the
same calls. -/
def Agree {σ : Type} (w1 w2 : Nat → TxEnv) (st1 st2 : Console σ)
    (o1 o2 : Outcome (Console σ)) : Prop :=
  o1.isOk = o2.isOk ∧ SameTask o1.state o2.state ∧
  ∃ cs, Reaches w1 st1 o1.state cs ∧ Reaches w2 st2 o2.state cs

/-- An environment in which every second `UART_Transfer` call times out on the mutex. -/
def lossyWorld : Nat → TxEnv :=
  fun n => if n % 2 = 0 then idealEnv else { take := false, issue := [], irqs := [] }

/-! ## Basic facts: outcomes and traces -/

section Basics

variable {S : Type}

@[simp] theorem andThen_ok (st : S) (k : S → Outcome S) : (Outcome.ok st).andThen k = k st := rfl

@[simp] theorem andThen_fault (f : Fault) (st : S) (k : S → Outcome S) :
    (Outcome.fault f st).andThen k = Outcome.fault f st := rfl

@[simp] theorem state_ok (st : S) : (Outcome.ok st).state = st := rfl

@[simp] theorem state_fault (f : Fault) (st : S) : (Outcome.fault f st).state = st := rfl

@[simp] theorem isOk_ok (st : S) : (Outcome.ok st).isOk = true := rfl

@[simp] theorem isOk_fault (f : Fault) (st : S) : (Outcome.fault f st).isOk = false := rfl

theorem eq_ok_of_isOk {o : Outcome S} (h : o.isOk = true) : o = Outcome.ok o.state := by
  cases o <;> simp_all

theorem dispatched_append (xs ys : List Event) :
    dispatched (xs ++ ys) = dispatched xs ++ dispatched ys := by
  induction xs with
  | nil => rfl
  | cons e es ih => cases e <;> simp [dispatched, ih]

theorem calls_append (xs ys : List Event) : calls (xs ++ ys) = calls xs ++ calls ys := by
  induction xs with
  | nil => rfl
  | cons e es ih => cases e <;> simp [calls, ih]

theorem wire_append (xs ys : List Event) : wire (xs ++ ys) = wire xs ++ wire ys := by
  induction xs with
  | nil => rfl
  | cons e es ih =>
    cases e with
    | transmitDMA p n ok => cases ok <;> simp [wire, ih]
    | _ => simp [wire, ih]

theorem dispatched_eq_nil_of_calls {xs : List Event} (h : calls xs = []) : dispatched xs = [] := by
  induction xs with
  | nil => rfl
  | cons e es ih => cases e <;> simp_all [calls, dispatched]

end Basics

/-! ## Facts about the transmit channel -/

section Transmit

/-- The events of `issueLoop`: they are appended to the trace, none is a call of the
console task, and nothing else changes. -/
theorem issueLoop_state (p : List Int) (n : Nat) (rs : List Bool) (u : Uart) :
    ∃ evs, (issueLoop p n rs u).state = { u with trace := u.trace ++ evs } ∧ calls evs = [] ∧
      (∀ q m, Event.transmitDMA q m true ∈ evs → q = p ∧ m = n) := by
  induction rs generalizing u with
  | nil => exact ⟨[], by simp [issueLoop], rfl, by simp⟩
  | cons r rs ih =>
    cases r with
    | true => exact ⟨[.transmitDMA p n true], by simp [issueLoop, Uart.log], rfl, by simp⟩
    | false =>
      obtain ⟨evs, h1, h2, h3⟩ := ih (u.log (.transmitDMA p n false))
      refine ⟨.transmitDMA p n false :: evs, ?_, by simpa [calls] using h2, ?_⟩
      · simp only [Uart.log, List.append_assoc, List.singleton_append] at h1
        simp [issueLoop, Uart.log, h1]
      · intro q m hq
        simp at hq
        exact h3 q m hq

/-- When the peripheral eventually accepts, `issueLoop` completes and exactly the block
`pData[0..Size)` goes out. -/
theorem issueLoop_ok (p : List Int) (n : Nat) (rs : List Bool) (u : Uart) (h : true ∈ rs) :
    ∃ evs, issueLoop p n rs u = .ok { u with trace := u.trace ++ evs } ∧ calls evs = [] ∧
      wire evs = p.take n := by
  induction rs generalizing u with
  | nil => simp at h
  | cons r rs ih =>
    cases r with
    | true => exact ⟨[.transmitDMA p n true], by simp [issueLoop, Uart.log], rfl, by simp [wire]⟩
    | false =>
      obtain ⟨evs, h1, h2, h3⟩ := ih (u.log (.transmitDMA p n false)) (by simpa using h)
      refine ⟨.transmitDMA p n false :: evs, ?_, by simpa [calls] using h2, by simpa [wire] using h3⟩
      simp only [Uart.log, List.append_assoc, List.singleton_append] at h1
      simp [issueLoop, Uart.log, h1]

/-- The events of `spinLoop`: completion interrupts only. -/
theorem spinLoop_state (irqs : List UsartInstance) (u : Uart) :
    ∃ evs, (spinLoop irqs u).state.trace = u.trace ++ evs ∧
      (spinLoop irqs u).state.nTransfers = u.nTransfers ∧ calls evs = [] ∧ wire evs = [] := by
  induction irqs generalizing u with
  | nil => refine ⟨[], ?_, ?_, rfl, rfl⟩ <;> by_cases h : u.sUart_tx_ready = 1 <;> simp [spinLoop, h]
  | cons i rest ih =>
    by_cases h : u.sUart_tx_ready = 1
    · refine ⟨[], ?_, ?_, rfl, rfl⟩ <;> simp [spinLoop, h]
    · obtain ⟨evs, h1, h2, h3, h4⟩ := ih (HAL_UART_TxCpltCallback i (u.log (.txCplt i)))
      have ht : (HAL_UART_TxCpltCallback i (u.log (.txCplt i))).trace = u.trace ++ [.txCplt i] := by
        unfold HAL_UART_TxCpltCallback Uart.log; split <;> rfl
      have hn : (HAL_UART_TxCpltCallback i (u.log (.txCplt i))).nTransfers = u.nTransfers := by
        unfold HAL_UART_TxCpltCallback Uart.log; split <;> rfl
      refine ⟨.txCplt i :: evs, ?_, ?_, by simpa [calls] using h3, by simpa [wire] using h4⟩
      · simp [spinLoop, h, h1, ht]
      · simp [spinLoop, h, h2, hn]

/-- When the completion of `USART1` is signalled, `spinLoop` exits with the flag set. -/
theorem spinLoop_ok (irqs : List UsartInstance) (u : Uart) (h : UsartInstance.USART1 ∈ irqs) :
    (spinLoop irqs u).isOk = true ∧ (spinLoop irqs u).state.sUart_tx_ready = 1 := by
  induction irqs generalizing u with
  | nil => simp at h
  | cons i rest ih =>
    by_cases hr : u.sUart_tx_ready = 1
    · simp [spinLoop, hr]
    · by_cases hi : i = UsartInstance.USART1
      · subst hi
        cases rest <;> simp [spinLoop, hr, HAL_UART_TxCpltCallback]
      · have hmem : UsartInstance.USART1 ∈ rest := by
          rcases List.mem_cons.mp h with h | h
          · exact absurd h.symm hi
          · exact h
        simpa [spinLoop, hr] using ih _ hmem

/-- General shape of a `UART_Transfer` call: whatever the environment does, the state it
stops in has one more call counted and a trace extended by the entry event followed
by events that are not calls of the console task. -/
theorem UART_Transfer_state (env : TxEnv) (p : List Int) (n : Nat) (u : Uart) :
    ∃ evs, (UART_Transfer env p n u).state.trace = u.trace ++ Event.uartTransfer p n :: evs ∧
      (UART_Transfer env p n u).state.nTransfers = u.nTransfers + 1 ∧ calls evs = [] := by
  unfold UART_Transfer
  cases htake : env.take with
  | false => exact ⟨[.semTake false], by simp, by simp, rfl⟩
  | true =>
    simp only [if_true]
    obtain ⟨e1, h1, c1, -⟩ := issueLoop_state p n env.issue
      { sUart_tx_ready := 0, nTransfers := u.nTransfers + 1,
        trace := u.trace ++ [.uartTransfer p n, .semTake true] }
    cases hi : issueLoop p n env.issue
      { sUart_tx_ready := 0, nTransfers := u.nTransfers + 1,
        trace := u.trace ++ [.uartTransfer p n, .semTake true] } with
    | fault f u1 =>
      rw [hi] at h1
      simp only [state_fault] at h1
      exact ⟨.semTake true :: e1, by simp [h1], by simp [h1], by simpa [calls] using c1⟩
    | ok u1 =>
      rw [hi] at h1
      simp only [state_ok] at h1
      obtain ⟨e2, h2, n2, c2, -⟩ := spinLoop_state env.irqs u1
      cases hs : spinLoop env.irqs u1 with
      | fault f u2 =>
        rw [hs] at h2 n2
        simp only [state_fault] at h2 n2
        refine ⟨.semTake true :: (e1 ++ e2), ?_, ?_, ?_⟩
        · simp only [andThen_ok, andThen_fault, hs, state_fault]
          simp [h2, h1]
        · simp only [andThen_ok, andThen_fault, hs, state_fault]
          simp [n2, h1]
        · simp [calls, calls_append, c1, c2]
      | ok u2 =>
        rw [hs] at h2 n2
        simp only [state_ok] at h2 n2
        refine ⟨.semTake true :: (e1 ++ e2 ++ [.semGive]), ?_, ?_, ?_⟩
        · simp only [andThen_ok, hs, state_ok, Uart.log]
          simp [h2, h1]
        · simp only [andThen_ok, hs, state_ok, Uart.log]
          simp [n2, h1]
        · simp [calls, calls_append, c1, c2]

/-- In a live environment `UART_Transfer` returns. -/
theorem UART_Transfer_live (env : TxEnv) (p : List Int) (n : Nat) (u : Uart) (h : env.live) :
    (UART_Transfer env p n u).isOk = true := by
  unfold UART_Transfer
  cases htake : env.take with
  | false => simp
  | true =>
    rcases h with h | ⟨hi, hq⟩
    · rw [htake] at h; cases h
    · simp only [if_true]
      obtain ⟨e1, h1, -, -⟩ := issueLoop_ok p n env.issue
        { sUart_tx_ready := 0, nTransfers := u.nTransfers + 1,
          trace := u.trace ++ [.uartTransfer p n, .semTake true] } hi
      rw [h1]
      simp only [andThen_ok]
      have hs := (spinLoop_ok env.irqs
        { sUart_tx_ready := 0, nTransfers := u.nTransfers + 1,
          trace := u.trace ++ [.uartTransfer p n, .semTake true] ++ e1 } hq).1
      rw [eq_ok_of_isOk hs]
      simp

/-- When the mutex is obtained and the hardware responds, the bytes `pData[0..Size)` and
no others are handed to the peripheral. -/
theorem UART_Transfer_wire (env : TxEnv) (p : List Int) (n : Nat) (u : Uart) (h : env.sends) :
    wire (UART_Transfer env p n u).state.trace = wire u.trace ++ p.take n := by
  obtain ⟨htake, hi, hq⟩ := h
  unfold UART_Transfer
  simp only [htake, if_true]
  obtain ⟨e1, h1, -, w1⟩ := issueLoop_ok p n env.issue
    { sUart_tx_ready := 0, nTransfers := u.nTransfers + 1,
      trace := u.trace ++ [.uartTransfer p n, .semTake true] } hi
  rw [h1]
  simp only [andThen_ok]
  obtain ⟨e2, h2, -, -, w2⟩ := spinLoop_state env.irqs
    { sUart_tx_ready := 0, nTransfers := u.nTransfers + 1,
      trace := u.trace ++ [.uartTransfer p n, .semTake true] ++ e1 }
  have hs := (spinLoop_ok env.irqs
    { sUart_tx_ready := 0, nTransfers := u.nTransfers + 1,
      trace := u.trace ++ [.uartTransfer p n, .semTake true] ++ e1 } hq).1
  rw [eq_ok_of_isOk hs]
  simp only [state_ok, andThen_ok, Uart.log]
  rw [h2]
  simp [wire_append, wire, w1, w2]

end Transmit

/-! ## Facts about the console task: transfers -/

section Task

variable {σ : Type}

/-- A transfer made by the console task changes the file-scope state only. -/
theorem transfer_state (world : Nat → TxEnv) (p : List Int) (n : Nat) (st : Console σ) :
    (transfer world p n st).state =
      { st with uart := (UART_Transfer (world st.uart.nTransfers) p n st.uart).state } := by
  unfold transfer
  cases UART_Transfer (world st.uart.nTransfers) p n st.uart <;> rfl

theorem transfer_isOk (world : Nat → TxEnv) (p : List Int) (n : Nat) (st : Console σ) :
    (transfer world p n st).isOk = (UART_Transfer (world st.uart.nTransfers) p n st.uart).isOk := by
  unfold transfer
  cases UART_Transfer (world st.uart.nTransfers) p n st.uart <;> rfl

theorem transfer_ok (world : Nat → TxEnv) (hw : ∀ k, (world k).live) (p : List Int) (n : Nat)
    (st : Console σ) : transfer world p n st = .ok (transfer world p n st).state := by
  apply eq_ok_of_isOk
  rw [transfer_isOk]
  exact UART_Transfer_live _ _ _ _ (hw _)

@[simp] theorem transfer_idx (world : Nat → TxEnv) (p : List Int) (n : Nat) (st : Console σ) :
    (transfer world p n st).state.ucInputIndex = st.ucInputIndex := by
  rw [transfer_state]

@[simp] theorem transfer_input (world : Nat → TxEnv) (p : List Int) (n : Nat) (st : Console σ) :
    (transfer world p n st).state.cInputString = st.cInputString := by
  rw [transfer_state]

@[simp] theorem transfer_last (world : Nat → TxEnv) (p : List Int) (n : Nat) (st : Console σ) :
    (transfer world p n st).state.cLastInputString = st.cLastInputString := by
  rw [transfer_state]

@[simp] theorem transfer_cli (world : Nat → TxEnv) (p : List Int) (n : Nat) (st : Console σ) :
    (transfer world p n st).state.cli = st.cli := by
  rw [transfer_state]

@[simp] theorem transfer_count (world : Nat → TxEnv) (p : List Int) (n : Nat) (st : Console σ) :
    (transfer world p n st).state.uart.nTransfers = st.uart.nTransfers + 1 := by
  rw [transfer_state]
  exact (UART_Transfer_state _ p n st.uart).choose_spec.2.1

@[simp] theorem transfer_calls (world : Nat → TxEnv) (p : List Int) (n : Nat) (st : Console σ) :
    calls (transfer world p n st).state.uart.trace =
      calls st.uart.trace ++ [Event.uartTransfer p n] := by
  rw [transfer_state]
  obtain ⟨evs, h1, -, h3⟩ := UART_Transfer_state (world st.uart.nTransfers) p n st.uart
  simp [h1, calls_append, calls, h3]

@[simp] theorem transfer_dispatched (world : Nat → TxEnv) (p : List Int) (n : Nat)
    (st : Console σ) :
    dispatched (transfer world p n st).state.uart.trace = dispatched st.uart.trace := by
  rw [transfer_state]
  obtain ⟨evs, h1, -, h3⟩ := UART_Transfer_state (world st.uart.nTransfers) p n st.uart
  simp [h1, dispatched_append, dispatched, dispatched_eq_nil_of_calls h3]

theorem transfer_wire (world : Nat → TxEnv) (hw : ∀ k, (world k).sends) (p : List Int) (n : Nat)
    (st : Console σ) :
    wire (transfer world p n st).state.uart.trace = wire st.uart.trace ++ p.take n := by
  rw [transfer_state]
  exact UART_Transfer_wire _ p n st.uart (hw _)

theorem live_of_sends {world : Nat → TxEnv} (hw : ∀ k, (world k).sends) : ∀ k, (world k).live :=
  fun k => Or.inr (hw k).2

end Task

/-! ## Line editing -/

section Editing

variable {σ : Type}

theorem set_len_append (l : List Int) (c : Int) (k : Nat) :
    (l ++ List.replicate (k + 1) 0).set l.length c = (l ++ [c]) ++ List.replicate k 0 := by
  induction l with
  | nil => simp [List.replicate_succ]
  | cons x xs ih => simpa using ih

theorem set_pred_append (l : List Int) (k : Nat) (h : l ≠ []) :
    (l ++ List.replicate k 0).set (l.length - 1) 0 = l.dropLast ++ List.replicate (k + 1) 0 := by
  induction l with
  | nil => exact absurd rfl h
  | cons x xs ih =>
    cases xs with
    | nil => simp [List.replicate_succ]
    | cons y ys =>
      have := ih (by simp)
      simp at this
      simp [List.dropLast, this]

theorem refStep_length_le (l : List Int) (c : Int) (h : l.length ≤ 50) :
    (refStep l c).length ≤ 50 := by
  unfold refStep
  split_ifs <;> (try simp) <;> omega

theorem refStep_printable (l : List Int) (c : Int) (h : ∀ x ∈ l, 32 ≤ x ∧ x ≤ 126) :
    ∀ x ∈ refStep l c, 32 ≤ x ∧ x ≤ 126 := by
  unfold refStep
  split_ifs with h1 h2 h3
  · intro x hx
    rcases List.mem_append.mp hx with hx | hx
    · exact h x hx
    · simp at hx; subst hx; exact h1
  · exact h
  · intro x hx; exact h x (List.mem_of_mem_dropLast hx)
  · exact h

theorem foldl_refStep_length_le (s l : List Int) (h : l.length ≤ 50) :
    (s.foldl refStep l).length ≤ 50 := by
  induction s generalizing l with
  | nil => simpa using h
  | cons c cs ih => exact ih _ (refStep_length_le l c h)

theorem foldl_refStep_printable (s l : List Int) (h : ∀ x ∈ l, 32 ≤ x ∧ x ≤ 126) :
    ∀ x ∈ s.foldl refStep l, 32 ≤ x ∧ x ≤ 126 := by
  induction s generalizing l with
  | nil => simpa using h
  | cons c cs ih => exact ih _ (refStep_printable l c h)

/-- The edit branch refines the reference editor: from a state holding `l` it completes
in the state holding `refStep l c`, for every character that is not a terminator. -/
theorem lineEdit_holding (l : List Int) (hl : l.length ≤ 50) (c : Int) (hc : c ≠ 13)
    (st : Console σ) : lineEdit c (holding l st) = .ok (holding (refStep l c) st) := by
  unfold lineEdit refStep
  simp only [hc, if_false, cmdASCII_DEL]
  by_cases hbs : c = 8 ∨ c = 127
  · have hnp : ¬ (32 ≤ c ∧ c ≤ 126) := by rcases hbs with h | h <;> omega
    have hnp2 : ¬ ((32:Int) ≤ c ∧ c ≤ 126) := hnp
    simp only [hbs, if_true]
    norm_num [hnp]
    by_cases hz : l = []
    · subst hz
      simp [holding]
    · have hpos : 0 < l.length := List.length_pos.mpr hz
      have hlen : (holding l st).ucInputIndex = l.length := rfl
      simp only [hlen, gt_iff_lt, hpos, if_true, storeInput]
      have hin : l.length - 1 < (holding l st).cInputString.length := by
        simp [holding]; omega
      simp only [holding] at hin ⊢
      simp only [hin, if_true]
      congr 1
      simp only [set_pred_append l _ hz, holding, List.length_dropLast, cmdMAX_INPUT_SIZE]
      congr 2
      congr 1
      omega
  · simp only [hbs, if_false]
    by_cases hp : 32 ≤ c ∧ c ≤ 126
    · simp only [hp, and_self, if_true]
      have hlen : (holding l st).ucInputIndex = l.length := rfl
      by_cases hfull : l.length < 50
      · simp only [hlen, cmdMAX_INPUT_SIZE, hfull, if_true, storeInput]
        have hin : l.length < (holding l st).cInputString.length := by
          simp [holding, cmdMAX_INPUT_SIZE]; omega
        simp only [hin, if_true, andThen_ok]
        have hk : cmdMAX_INPUT_SIZE - l.length = (50 - (l.length + 1)) + 1 := by
          simp [cmdMAX_INPUT_SIZE]; omega
        simp only [holding, hk, set_len_append]
        congr 1
        simp [cmdMAX_INPUT_SIZE]
        omega
      · simp [hlen, cmdMAX_INPUT_SIZE, hfull]
    · simp [hp]

theorem transfer_holding (world : Nat → TxEnv) (p : List Int) (n : Nat) (l : List Int)
    (st : Console σ) :
    (transfer world p n (holding l st)).state = holding l (transfer world p n st).state := by
  rw [transfer_state, transfer_state]
  rfl

/-- One iteration of the task loop for a character that is not a terminator. -/
theorem step_holding (world : Nat → TxEnv) (hw : ∀ k, (world k).live) (cli : Interpreter σ)
    (fuel : Nat) (l : List Int) (hl : l.length ≤ 50) (c : Int) (h10 : c ≠ 10) (h13 : c ≠ 13)
    (st : Console σ) :
    step world cli fuel c (holding l st) =
      .ok (holding (refStep l c) (transfer world [c] 1 st).state) := by
  unfold step
  rw [transfer_ok world hw, transfer_holding]
  simp only [andThen_ok, h10, h13, or_self, if_false]
  exact lineEdit_holding l hl c h13 _

/-- The task loop over a sequence without terminators refines the reference editor. -/
theorem run_holding (world : Nat → TxEnv) (hw : ∀ k, (world k).live) (cli : Interpreter σ)
    (fuel : Nat) (s : List Int) (hs : ∀ c ∈ s, c ≠ 10 ∧ c ≠ 13) (l : List Int)
    (hl : l.length ≤ 50) (st : Console σ) :
    run world cli fuel s (holding l st) =
      .ok (holding (s.foldl refStep l) (echoed world s st)) := by
  induction s generalizing l st with
  | nil => rfl
  | cons c cs ih =>
    have hc := hs c (List.mem_cons_self _ _)
    simp only [run, step_holding world hw cli fuel l hl c hc.1 hc.2, andThen_ok]
    rw [ih (fun x hx => hs x (List.mem_cons_of_mem _ hx)) _ (refStep_length_le l c hl)]
    rfl

theorem run_append (world : Nat → TxEnv) (cli : Interpreter σ) (fuel : Nat) (s t : List Int)
    (st : Console σ) :
    run world cli fuel (s ++ t) st = (run world cli fuel s st).andThen (run world cli fuel t) := by
  induction s generalizing st with
  | nil => rfl
  | cons c cs ih =>
    simp only [List.cons_append, run]
    cases step world cli fuel c st with
    | ok st1 => simpa using ih st1
    | fault f st1 => rfl

@[simp] theorem echoed_last (world : Nat → TxEnv) (s : List Int) (st : Console σ) :
    (echoed world s st).cLastInputString = st.cLastInputString := by
  induction s generalizing st with
  | nil => rfl
  | cons c cs ih => simp [echoed, List.foldl] at ih ⊢; rw [ih]; simp

@[simp] theorem echoed_cli (world : Nat → TxEnv) (s : List Int) (st : Console σ) :
    (echoed world s st).cli = st.cli := by
  induction s generalizing st with
  | nil => rfl
  | cons c cs ih => simp [echoed, List.foldl] at ih ⊢; rw [ih]; simp

@[simp] theorem echoed_dispatched (world : Nat → TxEnv) (s : List Int) (st : Console σ) :
    dispatched (echoed world s st).uart.trace = dispatched st.uart.trace := by
  induction s generalizing st with
  | nil => rfl
  | cons c cs ih => simp [echoed, List.foldl] at ih ⊢; rw [ih]; simp

theorem echoed_calls (world : Nat → TxEnv) (s : List Int) (st : Console σ) :
    calls (echoed world s st).uart.trace =
      calls st.uart.trace ++ s.map fun c => Event.uartTransfer [c] 1 := by
  induction s generalizing st with
  | nil => simp [echoed]
  | cons c cs ih => simp [echoed, List.foldl] at ih ⊢; rw [ih]; simp

theorem echoed_wire (world : Nat → TxEnv) (hw : ∀ k, (world k).sends) (s : List Int)
    (st : Console σ) : wire (echoed world s st).uart.trace = wire st.uart.trace ++ s := by
  induction s generalizing st with
  | nil => simp [echoed]
  | cons c cs ih =>
    simp [echoed, List.foldl] at ih ⊢
    rw [ih, transfer_wire world hw]
    simp

end Editing

/-! ## C strings in the arrays -/

section Strings

theorem cstr_append_zero (l r : List Int) (h : ∀ x ∈ l, x ≠ 0) : cstr (l ++ 0 :: r) = some l := by
  induction l with
  | nil => simp [cstr]
  | cons x xs ih =>
    have hx : x ≠ 0 := h x (List.mem_cons_self _ _)
    simp [cstr, hx, ih (fun y hy => h y (List.mem_cons_of_mem _ hy))]

theorem cstr_eq_none (l : List Int) (h : ∀ x ∈ l, x ≠ 0) : cstr l = none := by
  induction l with
  | nil => rfl
  | cons x xs ih =>
    have hx : x ≠ 0 := h x (List.mem_cons_self _ _)
    simp [cstr, hx, ih (fun y hy => h y (List.mem_cons_of_mem _ hy))]

theorem cstr_some (b l : List Int) (h : cstr b = some l) :
    b = l ++ 0 :: b.drop (l.length + 1) ∧ l.length < b.length ∧ ∀ x ∈ l, x ≠ 0 := by
  induction b generalizing l with
  | nil => simp [cstr] at h
  | cons x xs ih =>
    by_cases hx : x = 0
    · simp [cstr, hx] at h
      subst h
      simp [hx]
    · simp only [cstr, hx, if_false, Option.map_eq_some'] at h
      obtain ⟨l1, h1, h2⟩ := h
      subst h2
      obtain ⟨e1, e2, e3⟩ := ih l1 h1
      refine ⟨?_, ?_, ?_⟩
      · simpa using e1
      · simpa using e2
      · intro y hy
        rcases List.mem_cons.mp hy with hy | hy
        · subst hy; exact hx
        · exact e3 y hy

theorem cstr_holding (l : List Int) (h : ∀ x ∈ l, 32 ≤ x ∧ x ≤ 126) (hlt : l.length < 50) :
    cstr (l ++ List.replicate (cmdMAX_INPUT_SIZE - l.length) 0) = some l := by
  have hk : cmdMAX_INPUT_SIZE - l.length = (49 - l.length) + 1 := by
    simp [cmdMAX_INPUT_SIZE]; omega
  rw [hk, List.replicate_succ]
  exact cstr_append_zero l _ (fun x hx => by have := h x hx; omega)

theorem strcpy_some (dst src l : List Int) (h : cstr src = some l) (hd : l.length < dst.length) :
    strcpy dst src = some (l ++ 0 :: dst.drop (l.length + 1)) := by
  unfold strcpy
  simp only [h]
  have : l.length + 1 ≤ dst.length := hd
  simp [this]

theorem length_strcpy (dst l : List Int) (hd : l.length < dst.length) :
    (l ++ 0 :: dst.drop (l.length + 1)).length = dst.length := by
  simp
  omega

theorem take_strlen (p : List Int) : p.take (strlen p) = p.takeWhile (· ≠ 0) := by
  unfold strlen
  induction p with
  | nil => rfl
  | cons x xs ih =>
    by_cases h : x = 0
    · simp [List.takeWhile, h]
    · simpa [List.takeWhile, h] using ih

end Strings

/-! ## The drain loop -/

section Drain

variable {σ : Type}

theorem resultAt_succ (cli : Interpreter σ) (line : List Int) (s : σ) (j : Nat) :
    resultAt cli line s (j + 1) = resultAt cli line (cli s line).next j := rfl

theorem drainsIn_succ (cli : Interpreter σ) (line : List Int) (s : σ) (k : Nat)
    (h : DrainsIn cli line s (k + 1)) :
    (cli s line).more = true ∧ DrainsIn cli line (cli s line).next k := by
  refine ⟨h.1 0 (Nat.succ_pos k), ?_, ?_⟩
  · intro j hj
    exact h.1 (j + 1) (Nat.succ_lt_succ hj)
  · exact h.2

theorem drainCalls_zero (cli : Interpreter σ) (line : List Int) (s : σ) :
    drainCalls cli line s 0 =
      [Event.processCommand line,
       Event.uartTransfer (cli s line).out (toU16 (strlen (cli s line).out))] := by
  simp [drainCalls, resultAt, cliAfter, List.range_succ]

theorem drainCalls_succ (cli : Interpreter σ) (line : List Int) (s : σ) (k : Nat) :
    drainCalls cli line s (k + 1) =
      [Event.processCommand line,
       Event.uartTransfer (cli s line).out (toU16 (strlen (cli s line).out))] ++
      drainCalls cli line (cli s line).next k := by
  unfold drainCalls
  rw [List.range_succ_eq_map, List.map_cons, List.flatten_cons, List.map_map]
  rfl

theorem drainBytes_zero (cli : Interpreter σ) (line : List Int) (s : σ) :
    drainBytes cli line s 0 = (cli s line).out.take (toU16 (strlen (cli s line).out)) := by
  simp [drainBytes, resultAt, cliAfter, List.range_succ]

theorem drainBytes_succ (cli : Interpreter σ) (line : List Int) (s : σ) (k : Nat) :
    drainBytes cli line s (k + 1) =
      (cli s line).out.take (toU16 (strlen (cli s line).out)) ++
      drainBytes cli line (cli s line).next k := by
  unfold drainBytes
  rw [List.range_succ_eq_map, List.map_cons, List.flatten_cons, List.map_map]
  rfl

/-- Whatever the environment does, the drain loop leaves the index and both arrays
alone and passes the string at `cInputString`, and nothing else, to the interpreter;
with fuel for one round it makes at least one call. -/
theorem drainLoop_state (world : Nat → TxEnv) (cli : Interpreter σ) (line : List Int)
    (fuel : Nat) (st : Console σ) (hline : cstr st.cInputString = some line) :
    (drainLoop world cli fuel st).state.ucInputIndex = st.ucInputIndex ∧
    (drainLoop world cli fuel st).state.cInputString = st.cInputString ∧
    (drainLoop world cli fuel st).state.cLastInputString = st.cLastInputString ∧
    ∃ m, (0 < fuel → 0 < m) ∧
      dispatched (drainLoop world cli fuel st).state.uart.trace =
        dispatched st.uart.trace ++ List.replicate m line := by
  induction fuel generalizing st with
  | zero => exact ⟨rfl, rfl, rfl, 0, by simp, by simp [drainLoop]⟩
  | succ fuel ih =>
    simp only [drainLoop, hline]
    cases ht : transfer world (cli st.cli line).out (toU16 (strlen (cli st.cli line).out))
        { st with cli := (cli st.cli line).next,
                  uart := st.uart.log (.processCommand line) } with
    | fault f st1 =>
      have h1 := congrArg Outcome.state ht
      simp only [state_fault] at h1
      subst h1
      simp only [andThen_fault, state_fault, transfer_idx, transfer_input, transfer_last,
        transfer_dispatched, true_and]
      exact ⟨1, by simp, by simp [Uart.log, dispatched_append, dispatched]⟩
    | ok st1 =>
      have h1 := congrArg Outcome.state ht
      simp only [state_ok] at h1
      subst h1
      simp only [andThen_ok]
      by_cases hm : (cli st.cli line).more = true
      · simp only [hm, if_true]
        obtain ⟨i1, i2, i3, m, -, i4⟩ := ih (transfer world (cli st.cli line).out
          (toU16 (strlen (cli st.cli line).out))
          { st with cli := (cli st.cli line).next,
                    uart := st.uart.log (.processCommand line) }).state (by simpa using hline)
        refine ⟨by simpa using i1, by simpa using i2, by simpa using i3, m + 1, by simp, ?_⟩
        rw [i4]
        simp [Uart.log, dispatched_append, dispatched, List.replicate_succ]
      · have hm2 : (cli st.cli line).more = false := by simpa using hm
        simp only [hm2, Bool.false_eq_true, if_false, state_ok, transfer_idx, transfer_input,
          transfer_last, transfer_dispatched, true_and]
        exact ⟨1, by simp, by simp [Uart.log, dispatched_append, dispatched]⟩

/-- When the hardware responds and the interpreter finishes after `k + 1` calls, the
drain loop completes after exactly these calls. -/
theorem drainLoop_ok (world : Nat → TxEnv) (hw : ∀ n, (world n).live) (cli : Interpreter σ)
    (line : List Int) (k : Nat) (fuel : Nat) (hk : k < fuel) (st : Console σ)
    (hline : cstr st.cInputString = some line) (hd : DrainsIn cli line st.cli k) :
    ∃ st1, drainLoop world cli fuel st = .ok st1 ∧
      st1.ucInputIndex = st.ucInputIndex ∧ st1.cInputString = st.cInputString ∧
      st1.cLastInputString = st.cLastInputString ∧
      st1.cli = cliAfter cli line (k + 1) st.cli ∧
      st1.uart.nTransfers = st.uart.nTransfers + (k + 1) ∧
      calls st1.uart.trace = calls st.uart.trace ++ drainCalls cli line st.cli k ∧
      dispatched st1.uart.trace = dispatched st.uart.trace ++ List.replicate (k + 1) line ∧
      ((∀ n, (world n).sends) →
        wire st1.uart.trace = wire st.uart.trace ++ drainBytes cli line st.cli k) := by
  induction k generalizing fuel st with
  | zero =>
    obtain ⟨fuel, rfl⟩ : ∃ f, fuel = f + 1 := ⟨fuel - 1, by omega⟩
    have hm : (cli st.cli line).more = false := hd.2
    simp only [drainLoop, hline, hm]
    rw [transfer_ok world hw]
    refine ⟨_, rfl, by simp, by simp, by simp, by simp [cliAfter], by simp [Uart.log], ?_, ?_, ?_⟩
    · simp [drainCalls_zero, Uart.log, calls_append, calls]
    · simp [Uart.log, dispatched_append, dispatched]
    · intro hs
      rw [transfer_wire world hs]
      simp [drainBytes_zero, Uart.log, wire_append, wire]
  | succ k ih =>
    obtain ⟨fuel, rfl⟩ : ∃ f, fuel = f + 1 := ⟨fuel - 1, by omega⟩
    obtain ⟨hm, hd1⟩ := drainsIn_succ cli line st.cli k hd
    simp only [drainLoop, hline, hm]
    rw [transfer_ok world hw]
    simp only [andThen_ok, if_true]
    obtain ⟨st1, e, i1, i2, i3, i4, i5, i6, i7, i8⟩ :=
      ih fuel (by omega) (transfer world (cli st.cli line).out
        (toU16 (strlen (cli st.cli line).out))
        { st with cli := (cli st.cli line).next,
                  uart := st.uart.log (.processCommand line) }).state
        (by simpa using hline) (by simpa using hd1)
    refine ⟨st1, e, by simpa using i1, by simpa using i2, by simpa using i3, ?_, ?_, ?_, ?_, ?_⟩
    · simpa [cliAfter] using i4
    · rw [i5]; simp [Uart.log]; omega
    · rw [i6]
      simp [drainCalls_succ, Uart.log, calls_append, calls]
    · rw [i7]
      simp [Uart.log, dispatched_append, dispatched, List.replicate_succ]
    · intro hs
      rw [i8 hs, transfer_wire world hs]
      simp [drainBytes_succ, Uart.log, wire_append, wire]

end Drain

/-! ## Completed lines -/

section Complete

variable {σ : Type}

theorem repeatLast_ok (st : Console σ) (line : List Int)
    (hin : st.cInputString.length = cmdMAX_INPUT_SIZE)
    (hlast : st.cLastInputString.length = cmdMAX_INPUT_SIZE)
    (hline : pendingLine st = some line) :
    ∃ b, repeatLast st = .ok { st with cInputString := b } ∧ cstr b = some line ∧
      b.length = cmdMAX_INPUT_SIZE := by
  unfold pendingLine at hline
  unfold repeatLast
  by_cases h0 : st.ucInputIndex = 0
  · simp only [h0, if_true] at hline ⊢
    obtain ⟨-, e2, e3⟩ := cstr_some _ _ hline
    have hfit : line.length < st.cInputString.length := by omega
    rw [strcpy_some _ _ _ hline hfit]
    exact ⟨_, rfl, cstr_append_zero _ _ e3, by rw [length_strcpy _ _ hfit, hin]⟩
  · simp only [h0, if_false] at hline ⊢
    exact ⟨st.cInputString, rfl, hline, hin⟩

/-- The branch for a terminator, when the hardware responds and the interpreter finishes
after `k + 1` calls: it completes, with the calls, the dispatched lines and the bytes
sent as listed, the index 0, the input array cleared and the line saved. -/
theorem lineComplete_ok (world : Nat → TxEnv) (hw : ∀ n, (world n).live) (cli : Interpreter σ)
    (fuel : Nat) (st : Console σ) (line : List Int) (k : Nat)
    (hin : st.cInputString.length = cmdMAX_INPUT_SIZE)
    (hlast : st.cLastInputString.length = cmdMAX_INPUT_SIZE)
    (hline : pendingLine st = some line) (hd : DrainsIn cli line st.cli k) (hk : k < fuel) :
    ∃ st1, lineComplete world cli fuel st = .ok st1 ∧
      st1.ucInputIndex = 0 ∧ st1.cInputString = List.replicate cmdMAX_INPUT_SIZE 0 ∧
      st1.cLastInputString = line ++ 0 :: st.cLastInputString.drop (line.length + 1) ∧
      st1.cli = cliAfter cli line (k + 1) st.cli ∧
      st1.uart.nTransfers = st.uart.nTransfers + (k + 3) ∧
      calls st1.uart.trace = calls st.uart.trace ++
        Event.uartTransfer pcNewLine (toU16 (strlen pcNewLine)) :: (drainCalls cli line st.cli k ++
          [Event.uartTransfer pcEndOfOutputMessage (toU16 (strlen pcEndOfOutputMessage))]) ∧
      dispatched st1.uart.trace = dispatched st.uart.trace ++ List.replicate (k + 1) line ∧
      ((∀ n, (world n).sends) →
        wire st1.uart.trace = wire st.uart.trace ++
          (pcNewLine.take (toU16 (strlen pcNewLine)) ++ (drainBytes cli line st.cli k ++
            pcEndOfOutputMessage.take (toU16 (strlen pcEndOfOutputMessage))))) := by
  unfold lineComplete
  rw [transfer_ok world hw]
  simp only [andThen_ok]
  obtain ⟨b, hb, hbl, hblen⟩ := repeatLast_ok
    (transfer world pcNewLine (toU16 (strlen pcNewLine)) st).state line
    (by simpa using hin) (by simpa using hlast) (by simpa [pendingLine] using hline)
  rw [hb]
  simp only [andThen_ok]
  obtain ⟨st2, e, i1, i2, i3, i4, i5, i6, i7, i8⟩ := drainLoop_ok world hw cli line k fuel hk
    { (transfer world pcNewLine (toU16 (strlen pcNewLine)) st).state with cInputString := b }
    hbl (by simpa using hd)
  rw [e]
  simp only [andThen_ok]
  simp only [transfer_idx, transfer_last, transfer_cli, transfer_count, transfer_calls,
    transfer_dispatched] at i1 i2 i3 i4 i5 i6 i7
  obtain ⟨-, e2, e3⟩ := cstr_some _ _ hbl
  have hfit : line.length < st2.cLastInputString.length := by
    rw [i3, hlast, ← hblen]; exact e2
  rw [i2, i3, strcpy_some _ _ _ hbl (by rw [← i3]; exact hfit)]
  simp only []
  rw [transfer_ok world hw]
  refine ⟨_, rfl, by simp, by simp, by simp, by simpa using i4, ?_, ?_, ?_, ?_⟩
  · simp [i5]; omega
  · simp [i6]
  · simp [i7]
  · intro hs
    rw [transfer_wire world hs]
    have := i8 hs
    rw [transfer_wire world hs] at this
    simp [this]

/-- One iteration of the task loop for a terminator, under the assumptions of
`lineComplete_ok`. -/
theorem step_terminator_ok (world : Nat → TxEnv) (hw : ∀ n, (world n).live)
    (cli : Interpreter σ) (fuel : Nat) (t : Int) (ht : t = 10 ∨ t = 13) (st : Console σ)
    (line : List Int) (k : Nat)
    (hin : st.cInputString.length = cmdMAX_INPUT_SIZE)
    (hlast : st.cLastInputString.length = cmdMAX_INPUT_SIZE)
    (hline : pendingLine st = some line) (hd : DrainsIn cli line st.cli k) (hk : k < fuel) :
    ∃ st1, step world cli fuel t st = .ok st1 ∧
      st1.ucInputIndex = 0 ∧ st1.cInputString = List.replicate cmdMAX_INPUT_SIZE 0 ∧
      st1.cLastInputString = line ++ 0 :: st.cLastInputString.drop (line.length + 1) ∧
      st1.cli = cliAfter cli line (k + 1) st.cli ∧
      st1.uart.nTransfers = st.uart.nTransfers + (k + 4) ∧
      calls st1.uart.trace = calls st.uart.trace ++
        Event.uartTransfer [t] 1 :: Event.uartTransfer pcNewLine (toU16 (strlen pcNewLine)) ::
          (drainCalls cli line st.cli k ++
            [Event.uartTransfer pcEndOfOutputMessage (toU16 (strlen pcEndOfOutputMessage))]) ∧
      dispatched st1.uart.trace = dispatched st.uart.trace ++ List.replicate (k + 1) line ∧
      ((∀ n, (world n).sends) →
        wire st1.uart.trace = wire st.uart.trace ++
          (t :: (pcNewLine.take (toU16 (strlen pcNewLine)) ++ (drainBytes cli line st.cli k ++
            pcEndOfOutputMessage.take (toU16 (strlen pcEndOfOutputMessage)))))) := by
  unfold step
  rw [transfer_ok world hw]
  simp only [andThen_ok, ht, if_true]
  obtain ⟨st1, e, i1, i2, i3, i4, i5, i6, i7, i8⟩ := lineComplete_ok world hw cli fuel
    (transfer world [t] 1 st).state line k (by simpa using hin) (by simpa using hlast)
    (by simpa [pendingLine] using hline) (by simpa using hd) hk
  refine ⟨st1, e, i1, i2, by simpa using i3, by simpa using i4, ?_, ?_, ?_, ?_⟩
  · rw [i5]; simp; omega
  · rw [i6]; simp
  · rw [i7]; simp
  · intro hs
    rw [i8 hs, transfer_wire world hs]
    simp

/-- A terminator received while a line is being typed: as soon as the echo and the line
break have returned, the interpreter is called at least once, and only with the typed
line, whether or not the drain loop finishes. -/
theorem step_terminator_dispatched (world : Nat → TxEnv) (hw : ∀ n, (world n).live)
    (cli : Interpreter σ) (fuel : Nat) (hfuel : 0 < fuel) (t : Int) (ht : t = 10 ∨ t = 13)
    (st : Console σ) (line : List Int) (hidx : st.ucInputIndex ≠ 0)
    (hline : cstr st.cInputString = some line) :
    ∃ m, 0 < m ∧ dispatched (step world cli fuel t st).state.uart.trace =
      dispatched st.uart.trace ++ List.replicate m line := by
  unfold step
  rw [transfer_ok world hw]
  simp only [andThen_ok, ht, if_true]
  unfold lineComplete
  rw [transfer_ok world hw]
  simp only [andThen_ok]
  have hrep : repeatLast (transfer world pcNewLine (toU16 (strlen pcNewLine))
      (transfer world [t] 1 st).state).state =
      .ok (transfer world pcNewLine (toU16 (strlen pcNewLine))
        (transfer world [t] 1 st).state).state := by
    unfold repeatLast
    simp [hidx]
  rw [hrep]
  simp only [andThen_ok]
  obtain ⟨-, -, -, m, hm, hdisp⟩ := drainLoop_state world cli line fuel
    (transfer world pcNewLine (toU16 (strlen pcNewLine)) (transfer world [t] 1 st).state).state
    (by simpa using hline)
  simp only [transfer_dispatched] at hdisp
  refine ⟨m, hm hfuel, ?_⟩
  cases hdl : drainLoop world cli fuel
      (transfer world pcNewLine (toU16 (strlen pcNewLine)) (transfer world [t] 1 st).state).state with
  | fault f st3 =>
    rw [hdl] at hdisp
    simpa using hdisp
  | ok st3 =>
    rw [hdl] at hdisp
    simp only [andThen_ok, state_ok] at hdisp ⊢
    cases strcpy st3.cLastInputString st3.cInputString with
    | none => simpa using hdisp
    | some b => simpa using hdisp

end Complete

/-! ## Claims -/

section Claims

variable {σ : Type}

theorem holding_nil_of_empty (st0 : Console σ) (hidx : st0.ucInputIndex = 0)
    (hbuf : st0.cInputString = List.replicate cmdMAX_INPUT_SIZE 0) : holding [] st0 = st0 := by
  cases st0
  simp only [holding] at *
  simp [hidx, hbuf]

theorem andThen_ok_right {S : Type} (o : Outcome S) : o.andThen Outcome.ok = o := by
  cases o <;> rfl

theorem run_singleton (world : Nat → TxEnv) (cli : Interpreter σ) (fuel : Nat) (c : Int)
    (st : Console σ) : run world cli fuel [c] st = step world cli fuel c st := by
  simp only [run]
  exact andThen_ok_right _

/-- Typing `s` on an empty line and then sending `t` amounts to one iteration for `t`
in the state that holds `refLine s`. -/
theorem run_typed_then (world : Nat → TxEnv) (hw : ∀ n, (world n).live) (cli : Interpreter σ)
    (fuel : Nat) (st0 : Console σ) (hidx : st0.ucInputIndex = 0)
    (hbuf : st0.cInputString = List.replicate cmdMAX_INPUT_SIZE 0)
    (s : List Int) (hs : ∀ c ∈ s, c ≠ 10 ∧ c ≠ 13) (ts : List Int) :
    run world cli fuel (s ++ ts) st0 =
      run world cli fuel ts (holding (refLine s) (echoed world s st0)) := by
  have h := run_holding world hw cli fuel s hs [] (by simp) st0
  rw [holding_nil_of_empty st0 hidx hbuf] at h
  rw [run_append, h]
  rfl

theorem idealEnv_sends : ∀ n : Nat, ((fun _ => idealEnv) n).sends := by
  intro n
  show idealEnv.sends
  exact ⟨rfl, by decide, by decide⟩

theorem idealEnv_live : ∀ n : Nat, ((fun _ => idealEnv) n).live :=
  live_of_sends idealEnv_sends

/-- C1 (line assembly): from an empty input line, after a sequence `s` without
terminators followed by a terminator `t`, if the reference line `refLine s` is not
empty and shorter than 50 characters, then the interpreter has been called at least
once and every line passed to it is exactly `refLine s`. -/
theorem C1_line_assembly (world : Nat → TxEnv) (hw : ∀ n, (world n).live)
    (cli : Interpreter σ) (fuel : Nat) (hfuel : 0 < fuel) (st0 : Console σ)
    (hidx : st0.ucInputIndex = 0)
    (hbuf : st0.cInputString = List.replicate cmdMAX_INPUT_SIZE 0)
    (s : List Int) (hs : ∀ c ∈ s, c ≠ 10 ∧ c ≠ 13) (t : Int) (ht : t = 10 ∨ t = 13)
    (hne : refLine s ≠ []) (hlt : (refLine s).length < 50) :
    ∃ m, 0 < m ∧ dispatched (run world cli fuel (s ++ [t]) st0).state.uart.trace =
      dispatched st0.uart.trace ++ List.replicate m (refLine s) := by
  have hpr := foldl_refStep_printable s [] (by simp)
  obtain ⟨m, hm, hd⟩ := step_terminator_dispatched world hw cli fuel hfuel t ht
    (holding (refLine s) (echoed world s st0)) (refLine s)
    (by simpa [holding] using hne) (cstr_holding _ hpr hlt)
  refine ⟨m, hm, ?_⟩
  rw [run_typed_then world hw cli fuel st0 hidx hbuf s hs, run_singleton, hd]
  simp [holding]

/-- C1, witness: the characters a, b, c, backspace, backspace, x and a carriage return
dispatch the line "ax". -/
theorem C1_line_assembly_witness :
    refLine [97, 98, 99, 8, 8, 120] = [97, 120] ∧
    ∃ m, 0 < m ∧
      dispatched (run (fun _ => idealEnv) okInterpreter 1 ([97, 98, 99, 8, 8, 120] ++ [13])
        (initial () uart0)).state.uart.trace =
      dispatched (initial () uart0).uart.trace ++ List.replicate m (refLine [97, 98, 99, 8, 8, 120]) :=
  ⟨by decide,
   C1_line_assembly (fun _ => idealEnv) idealEnv_live okInterpreter 1
    (by decide) (initial () uart0) rfl rfl [97, 98, 99, 8, 8, 120] (by decide) 13 (by decide)
    (by decide) (by decide)⟩

theorem holding_pending (l : List Int) (hne : l ≠ []) (hlt : l.length < 50)
    (hpr : ∀ x ∈ l, 32 ≤ x ∧ x ≤ 126) (st : Console σ) :
    pendingLine (holding l st) = some l := by
  have h0 : (holding l st).ucInputIndex ≠ 0 := by simpa [holding] using hne
  unfold pendingLine
  simp only [h0, if_false]
  exact cstr_holding l hpr hlt

theorem holding_input_length (l : List Int) (hl : l.length ≤ 50) (st : Console σ) :
    (holding l st).cInputString.length = cmdMAX_INPUT_SIZE := by
  simp [holding, cmdMAX_INPUT_SIZE]
  omega

/-- Terminators received while the line is empty (directly, or after characters that
leave the line empty), one after the other: each of them dispatches the stored line
again and leaves `cLastInputString` as it was. -/
theorem run_repeat (world : Nat → TxEnv) (hw : ∀ n, (world n).live) (cli : Interpreter σ)
    (fuel : Nat) (hfin : ∀ s line, ∃ k, k < fuel ∧ DrainsIn cli line s k) (L : List Int)
    (segs : List (List Int × Int))
    (hsegs : ∀ p ∈ segs, (∀ c ∈ p.1, c ≠ 10 ∧ c ≠ 13) ∧ refLine p.1 = [] ∧ (p.2 = 10 ∨ p.2 = 13))
    (st : Console σ) (hidx : st.ucInputIndex = 0)
    (hin : st.cInputString = List.replicate cmdMAX_INPUT_SIZE 0)
    (hlen : st.cLastInputString.length = cmdMAX_INPUT_SIZE)
    (hL : cstr st.cLastInputString = some L) :
    ∃ (st1 : Console σ) (ks : List Nat),
      run world cli fuel (segs.map fun p => p.1 ++ [p.2]).flatten st = .ok st1 ∧
      st1.ucInputIndex = 0 ∧ st1.cInputString = List.replicate cmdMAX_INPUT_SIZE 0 ∧
      st1.cLastInputString = st.cLastInputString ∧ ks.length = segs.length ∧
      dispatched st1.uart.trace = dispatched st.uart.trace ++
        (ks.map fun k => List.replicate (k + 1) L).flatten := by
  induction segs generalizing st with
  | nil => exact ⟨st, [], rfl, hidx, hin, rfl, rfl, by simp⟩
  | cons p segs ih =>
    obtain ⟨hp1, hp2, hp3⟩ := hsegs p (List.mem_cons_self _ _)
    obtain ⟨k, hk, hd⟩ := hfin st.cli L
    have hpend : pendingLine (holding ([] : List Int) (echoed world p.1 st)) = some L := by
      simp [pendingLine, holding, hL]
    obtain ⟨st1, e, i1, i2, i3, -, -, -, i7, -⟩ := step_terminator_ok world hw cli fuel p.2 hp3
      (holding ([] : List Int) (echoed world p.1 st)) L k
      (holding_input_length _ (by simp) _) (by simpa [holding] using hlen) hpend
      (by simpa [holding] using hd) hk
    have hsame : st1.cLastInputString = st.cLastInputString := by
      rw [i3]
      simp only [holding, echoed_last]
      exact (cstr_some _ _ hL).1.symm
    obtain ⟨st2, ks, e2, j1, j2, j3, j4, j5⟩ := ih (fun q hq => hsegs q (List.mem_cons_of_mem _ hq))
      st1 i1 i2 (by rw [hsame]; exact hlen) (by rw [hsame]; exact hL)
    refine ⟨st2, k :: ks, ?_, j1, j2, by rw [j3, hsame], by simp [j4], ?_⟩
    · simp only [List.map_cons, List.flatten_cons, List.append_assoc, List.singleton_append]
      rw [run_typed_then world hw cli fuel st hidx hin p.1 hp1, hp2]
      simp [run, e, e2]
    · rw [j5, i7]
      simp [holding]

/-- C2 (repeat last command): after a non-empty line L shorter than 50 characters has
been typed on an empty line and dispatched by a terminator, every following terminator
received while the index is 0 (at once, or after characters that leave the line empty
again), any number of them, makes the interpreter run on exactly L again, and
`cLastInputString` still holds L afterwards.  Each pair in `segs` is one such
submission: the characters received before the terminator, and the terminator.  The
list `ks` gives, for each terminator, the number of additional interpreter calls of its
drain loop. -/
theorem C2_repeat_last_command (world : Nat → TxEnv) (hw : ∀ n, (world n).live)
    (cli : Interpreter σ) (fuel : Nat) (hfin : ∀ s line, ∃ k, k < fuel ∧ DrainsIn cli line s k)
    (st0 : Console σ) (hidx : st0.ucInputIndex = 0)
    (hbuf : st0.cInputString = List.replicate cmdMAX_INPUT_SIZE 0)
    (hlast : st0.cLastInputString.length = cmdMAX_INPUT_SIZE)
    (s : List Int) (hs : ∀ c ∈ s, c ≠ 10 ∧ c ≠ 13) (t : Int) (ht : t = 10 ∨ t = 13)
    (hne : refLine s ≠ []) (hlt : (refLine s).length < 50)
    (segs : List (List Int × Int))
    (hsegs : ∀ p ∈ segs, (∀ c ∈ p.1, c ≠ 10 ∧ c ≠ 13) ∧ refLine p.1 = [] ∧ (p.2 = 10 ∨ p.2 = 13)) :
    ∃ (st1 : Console σ) (ks : List Nat),
      run world cli fuel (s ++ t :: (segs.map fun p => p.1 ++ [p.2]).flatten) st0 = .ok st1 ∧
      st1.ucInputIndex = 0 ∧
      cstr st1.cLastInputString = some (refLine s) ∧ ks.length = segs.length + 1 ∧
      dispatched st1.uart.trace = dispatched st0.uart.trace ++
        (ks.map fun k => List.replicate (k + 1) (refLine s)).flatten := by
  have hpr := foldl_refStep_printable s [] (by simp)
  have hnz : ∀ x ∈ refLine s, x ≠ 0 := fun x hx => by have := hpr x hx; omega
  obtain ⟨k, hk, hd⟩ := hfin st0.cli (refLine s)
  obtain ⟨st1, e, i1, i2, i3, -, -, -, i7, -⟩ := step_terminator_ok world hw cli fuel t ht
    (holding (refLine s) (echoed world s st0)) (refLine s) k
    (holding_input_length _ (le_of_lt hlt) _) (by simpa [holding] using hlast)
    (holding_pending _ hne hlt hpr _) (by simpa [holding] using hd) hk
  have hfit : (refLine s).length < st0.cLastInputString.length := by
    rw [hlast]; exact hlt
  have hlast1 : st1.cLastInputString.length = cmdMAX_INPUT_SIZE := by
    rw [i3]
    simp only [holding, echoed_last]
    rw [length_strcpy _ _ hfit, hlast]
  obtain ⟨st2, ks, e2, j1, -, j3, j4, j5⟩ := run_repeat world hw cli fuel hfin (refLine s) segs
    hsegs st1 i1 i2 hlast1 (by rw [i3]; exact cstr_append_zero _ _ hnz)
  refine ⟨st2, k :: ks, ?_, j1, ?_, by simp [j4], ?_⟩
  · rw [run_typed_then world hw cli fuel st0 hidx hbuf s hs]
    simp [run, e, e2]
  · rw [j3, i3]; exact cstr_append_zero _ _ hnz
  · rw [j5, i7]
    simp [holding]

theorem okInterpreter_drains (fuel : Nat) (hfuel : 0 < fuel) :
    ∀ (s : Unit) (line : List Int), ∃ k, k < fuel ∧ DrainsIn okInterpreter line s k :=
  fun _ _ => ⟨0, hfuel, fun _ hj => absurd hj (Nat.not_lt_zero _), rfl⟩

/-- C2, witness: "help" and a carriage return; then a carriage return on the empty
line; then the letter a, a backspace and a line feed. -/
theorem C2_repeat_last_command_witness :
    refLine (lit "help") = lit "help" ∧
    ∃ (st1 : Console Unit) (ks : List Nat),
      run (fun _ => idealEnv) okInterpreter 1
        (lit "help" ++ 13 :: ([([], 13), ([97, 8], 10)].map fun p => p.1 ++ [p.2]).flatten)
        (initial () uart0) = .ok st1 ∧
      st1.ucInputIndex = 0 ∧
      cstr st1.cLastInputString = some (refLine (lit "help")) ∧
      ks.length = [(([] : List Int), (13 : Int)), ([97, 8], 10)].length + 1 ∧
      dispatched st1.uart.trace = dispatched (initial () uart0).uart.trace ++
        (ks.map fun k => List.replicate (k + 1) (refLine (lit "help"))).flatten :=
  ⟨by decide,
   C2_repeat_last_command (fun _ => idealEnv) idealEnv_live okInterpreter 1
    (okInterpreter_drains 1 (by decide)) (initial () uart0) rfl rfl (by decide) (lit "help")
    (by decide) 13 (by decide) (by decide) (by decide) [([], 13), ([97, 8], 10)] (by decide)⟩

theorem foldl_refStep_printable_eq (cs l : List Int) (hl : l.length ≤ 50)
    (hcs : ∀ c ∈ cs, 32 ≤ c ∧ c ≤ 126) : cs.foldl refStep l = (l ++ cs).take 50 := by
  induction cs generalizing l with
  | nil => simp [List.take_of_length_le hl]
  | cons c cs ih =>
    have hc : 32 ≤ c ∧ c ≤ 126 := hcs c (List.mem_cons_self _ _)
    have hrest : ∀ x ∈ cs, 32 ≤ x ∧ x ≤ 126 := fun x hx => hcs x (List.mem_cons_of_mem _ hx)
    simp only [List.foldl_cons]
    by_cases hfull : l.length < 50
    · have hstep : refStep l c = l ++ [c] := by
        unfold refStep
        rw [if_pos hc, if_pos hfull]
      rw [hstep, ih _ (by simp; omega) hrest]
      simp
    · have hstep : refStep l c = l := by
        unfold refStep
        rw [if_pos hc, if_neg hfull]
      have h50 : l.length = 50 := by omega
      rw [hstep, ih _ hl hrest, List.take_append_of_le_length (by omega),
        List.take_append_of_le_length (by omega)]

/-- On printable characters the reference editor keeps the first 50 of them. -/
theorem refLine_printable (cs : List Int) (hcs : ∀ c ∈ cs, 32 ≤ c ∧ c ≤ 126) :
    refLine cs = cs.take 50 := by
  unfold refLine
  rw [foldl_refStep_printable_eq cs [] (by simp) hcs]
  rfl

/-- C3 (drain loop): if the interpreter reports more output for the first `k` calls for
the line and no more output on call `k + 1`, the loop completes after exactly `k + 1`
rounds; each round is one interpreter call with the same line followed at once by one
`UART_Transfer` of the output buffer that call left, in call order. -/
theorem C3_drain_loop (world : Nat → TxEnv) (hw : ∀ n, (world n).live) (cli : Interpreter σ)
    (fuel : Nat) (st : Console σ) (line : List Int) (k : Nat)
    (hline : cstr st.cInputString = some line)
    (hmore : ∀ j, j < k → (resultAt cli line st.cli j).more = true)
    (hlast : (resultAt cli line st.cli k).more = false) (hk : k < fuel) :
    ∃ st1, drainLoop world cli fuel st = .ok st1 ∧
      calls st1.uart.trace = calls st.uart.trace ++
        ((List.range (k + 1)).map fun j =>
          [Event.processCommand line,
           Event.uartTransfer (resultAt cli line st.cli j).out
             (toU16 (strlen (resultAt cli line st.cli j).out))]).flatten ∧
      dispatched st1.uart.trace = dispatched st.uart.trace ++ List.replicate (k + 1) line ∧
      st1.uart.nTransfers = st.uart.nTransfers + (k + 1) := by
  obtain ⟨st1, e, -, -, -, -, i5, i6, i7, -⟩ :=
    drainLoop_ok world hw cli line k fuel hk st hline ⟨hmore, hlast⟩
  exact ⟨st1, e, i6, i7, i5⟩

/-- C3, witness: an interpreter that produces three chunks for the line "help". -/
theorem C3_drain_loop_witness :
    ∃ st1, drainLoop (fun _ => idealEnv) chunkInterpreter 5
        (holding (lit "help") (initial 0 uart0)) = .ok st1 ∧
      calls st1.uart.trace = calls (holding (lit "help") (initial 0 uart0)).uart.trace ++
        ((List.range (2 + 1)).map fun j =>
          [Event.processCommand (lit "help"),
           Event.uartTransfer
             (resultAt chunkInterpreter (lit "help") (holding (lit "help") (initial 0 uart0)).cli j).out
             (toU16 (strlen
               (resultAt chunkInterpreter (lit "help")
                 (holding (lit "help") (initial 0 uart0)).cli j).out))]).flatten ∧
      dispatched st1.uart.trace = dispatched (holding (lit "help") (initial 0 uart0)).uart.trace ++
        List.replicate (2 + 1) (lit "help") ∧
      st1.uart.nTransfers = (holding (lit "help") (initial 0 uart0)).uart.nTransfers + (2 + 1) :=
  C3_drain_loop (fun _ => idealEnv) idealEnv_live chunkInterpreter 5
    (holding (lit "help") (initial 0 uart0)) (lit "help") 2 (by decide) (by decide) (by decide)
    (by decide)

/-- C4, at the failing input: after 50 printable characters (here 50 times the letter
a) the task has completed 50 edit steps, the index is 50, and none of the 50 bytes of
`cInputString` is a NUL, so the array holds no terminated string. -/
theorem C4_full_line_has_no_terminator :
    ∃ st, run (fun _ => idealEnv) okInterpreter 1 (List.replicate 50 97) (initial () uart0) =
        .ok st ∧
      st.ucInputIndex = 50 ∧ st.cInputString.length = cmdMAX_INPUT_SIZE ∧
      (0 : Int) ∉ st.cInputString ∧ cstr st.cInputString = none := by
  have hpr : ∀ c ∈ List.replicate 50 (97 : Int), 32 ≤ c ∧ c ≤ 126 := fun c hc => by
    rw [List.eq_of_mem_replicate hc]; decide
  have h := run_typed_then (fun _ => idealEnv) idealEnv_live okInterpreter 1 (initial () uart0)
    rfl rfl (List.replicate 50 97) (fun c hc => by have := hpr c hc; omega) []
  rw [List.append_nil] at h
  have hr : refLine (List.replicate 50 97) = List.replicate 50 97 := by
    rw [refLine_printable _ hpr]
    exact List.take_of_length_le (by simp)
  have hz : (0 : Int) ∉ List.replicate 50 (97 : Int) := fun hc => by
    have := List.eq_of_mem_replicate hc
    omega
  refine ⟨_, h, ?_, ?_, ?_, ?_⟩
  · simp only [holding]; rw [hr]; simp
  · simp only [holding]; rw [hr]; simp [cmdMAX_INPUT_SIZE]
  · simp only [holding]; rw [hr]
    simp [cmdMAX_INPUT_SIZE]
  · simp only [holding]; rw [hr]
    apply cstr_eq_none
    intro x hx
    have hx2 : x ∈ List.replicate 50 (97 : Int) := by simpa [cmdMAX_INPUT_SIZE] using hx
    rw [List.eq_of_mem_replicate hx2]
    decide

/-- Within the bounds the edit branch completes (its stores are inside the array), moves
the index by at most one without wrapping, and stays within the bounds. -/
theorem lineEdit_inBounds (c : Int) (st : Console σ) (h : InBounds st) :
    (lineEdit c st).isOk = true ∧ InBounds (lineEdit c st).state ∧
      (lineEdit c st).state.ucInputIndex ≤ st.ucInputIndex + 1 ∧
      st.ucInputIndex ≤ (lineEdit c st).state.ucInputIndex + 1 := by
  obtain ⟨h1, h2⟩ := h
  unfold InBounds
  unfold lineEdit
  simp only [cmdMAX_INPUT_SIZE] at h1 h2 ⊢
  split_ifs with a b c1 d e
  · simp [h1, h2]
  · have hin : st.ucInputIndex - 1 < 50 := by omega
    simp [storeInput, hin, h2]
    omega
  · simp [h1, h2]
  · have hin : st.ucInputIndex < 50 := by omega
    have hmod : (st.ucInputIndex + 1) % 256 = st.ucInputIndex + 1 := Nat.mod_eq_of_lt (by omega)
    simp [storeInput, hin, h2, hmod]
    omega
  · simp [h1, h2]
  · simp [h1, h2]

theorem transfer_inBounds (world : Nat → TxEnv) (p : List Int) (n : Nat) (st : Console σ)
    (h : InBounds st) : InBounds (transfer world p n st).state := by
  unfold InBounds at h ⊢
  simpa using h

/-- The drain loop never writes the index or the input array. -/
theorem drainLoop_frame (world : Nat → TxEnv) (cli : Interpreter σ) (fuel : Nat)
    (st : Console σ) :
    (drainLoop world cli fuel st).state.ucInputIndex = st.ucInputIndex ∧
    (drainLoop world cli fuel st).state.cInputString = st.cInputString ∧
    (drainLoop world cli fuel st).state.cLastInputString = st.cLastInputString := by
  cases hline : cstr st.cInputString with
  | none => cases fuel <;> simp [drainLoop, hline]
  | some line =>
    obtain ⟨h1, h2, h3, -⟩ := drainLoop_state world cli line fuel st hline
    exact ⟨h1, h2, h3⟩

theorem repeatLast_inBounds (st : Console σ) (h : InBounds st) :
    InBounds (repeatLast st).state := by
  unfold repeatLast
  by_cases h0 : st.ucInputIndex = 0
  · simp only [h0, if_true]
    cases hs : strcpy st.cInputString st.cLastInputString with
    | none => exact h
    | some b =>
      unfold strcpy at hs
      cases hc : cstr st.cLastInputString with
      | none => simp [hc] at hs
      | some l =>
        simp only [hc] at hs
        by_cases hfit : l.length + 1 ≤ st.cInputString.length
        · simp only [hfit, if_true, Option.some.injEq] at hs
          subst hs
          refine ⟨by simp [h0], ?_⟩
          simp only [state_ok]
          rw [length_strcpy _ _ (by omega)]
          exact h.2
        · simp [hfit] at hs
  · simp only [h0, if_false]
    exact h

theorem lineComplete_inBounds (world : Nat → TxEnv) (cli : Interpreter σ) (fuel : Nat)
    (st : Console σ) (h : InBounds st) : InBounds (lineComplete world cli fuel st).state := by
  unfold lineComplete
  have h1 := transfer_inBounds world pcNewLine (toU16 (strlen pcNewLine)) st h
  cases e1 : transfer world pcNewLine (toU16 (strlen pcNewLine)) st with
  | fault f s1 => rw [e1] at h1; exact h1
  | ok s1 =>
    rw [e1] at h1
    simp only [state_ok, andThen_ok] at h1 ⊢
    have h2 := repeatLast_inBounds s1 h1
    cases e2 : repeatLast s1 with
    | fault f s2 => rw [e2] at h2; exact h2
    | ok s2 =>
      rw [e2] at h2
      simp only [state_ok, andThen_ok] at h2 ⊢
      have h3 := drainLoop_frame world cli fuel s2
      cases e3 : drainLoop world cli fuel s2 with
      | fault f s3 =>
        rw [e3] at h3
        simp only [state_fault, andThen_fault] at h3 ⊢
        exact ⟨by rw [h3.1]; exact h2.1, by rw [h3.2.1]; exact h2.2⟩
      | ok s3 =>
        rw [e3] at h3
        simp only [state_ok, andThen_ok] at h3 ⊢
        cases strcpy s3.cLastInputString s3.cInputString with
        | none => exact ⟨by rw [state_fault, h3.1]; exact h2.1, by rw [state_fault, h3.2.1]; exact h2.2⟩
        | some b =>
          apply transfer_inBounds
          exact ⟨Nat.zero_le _, by simp⟩

theorem step_inBounds (world : Nat → TxEnv) (cli : Interpreter σ) (fuel : Nat) (c : Int)
    (st : Console σ) (h : InBounds st) : InBounds (step world cli fuel c st).state := by
  unfold step
  have h1 := transfer_inBounds world [c] 1 st h
  cases e1 : transfer world [c] 1 st with
  | fault f s1 => rw [e1] at h1; exact h1
  | ok s1 =>
    rw [e1] at h1
    simp only [state_ok, andThen_ok] at h1 ⊢
    split_ifs
    · exact lineComplete_inBounds world cli fuel s1 h1
    · exact (lineEdit_inBounds c s1 h1).2.1

theorem run_inBounds (world : Nat → TxEnv) (cli : Interpreter σ) (fuel : Nat) (input : List Int)
    (st : Console σ) (h : InBounds st) : InBounds (run world cli fuel input st).state := by
  induction input generalizing st with
  | nil => exact h
  | cons c cs ih =>
    simp only [run]
    have h1 := step_inBounds world cli fuel c st h
    cases e1 : step world cli fuel c st with
    | fault f s1 => rw [e1] at h1; exact h1
    | ok s1 => rw [e1] at h1; exact ih s1 h1

/-- C5 (input index bound): for every sequence of received characters, every
environment and every interpreter, in the state the task has reached (it completed the
sequence, or it stopped inside it) the index is at most 50 and the input array has its
50 bytes; from that state the edit branch completes for every character, that is, its
stores `cInputString[ucInputIndex]` are inside the array, and it moves the index by at
most one, so the 8-bit index never wraps. -/
theorem C5_input_index_bound (world : Nat → TxEnv) (cli : Interpreter σ) (fuel : Nat) (s0 : σ)
    (u : Uart) (input : List Int) :
    (run world cli fuel input (initial s0 u)).state.ucInputIndex ≤ cmdMAX_INPUT_SIZE ∧
    (run world cli fuel input (initial s0 u)).state.cInputString.length = cmdMAX_INPUT_SIZE ∧
    ∀ c : Int,
      (lineEdit c (run world cli fuel input (initial s0 u)).state).isOk = true ∧
      (lineEdit c (run world cli fuel input (initial s0 u)).state).state.ucInputIndex ≤
        (run world cli fuel input (initial s0 u)).state.ucInputIndex + 1 ∧
      (run world cli fuel input (initial s0 u)).state.ucInputIndex ≤
        (lineEdit c (run world cli fuel input (initial s0 u)).state).state.ucInputIndex + 1 := by
  have h := run_inBounds world cli fuel input (initial s0 u)
    ⟨Nat.zero_le _, by simp [initial]⟩
  refine ⟨h.1, h.2, fun c => ?_⟩
  obtain ⟨h1, -, h3, h4⟩ := lineEdit_inBounds c _ h
  exact ⟨h1, h3, h4⟩

/-- C6 (overflow truncation): from an empty line, after more than 50 printable
characters `cs` the index is 50 and the input array holds exactly the first 50 of them;
a following backspace or DEL leaves the index 49, the first 49 characters in bytes
0..48 and a NUL in byte 49. -/
theorem C6_overflow_truncation (world : Nat → TxEnv) (hw : ∀ n, (world n).live)
    (cli : Interpreter σ) (fuel : Nat) (st0 : Console σ) (hidx : st0.ucInputIndex = 0)
    (hbuf : st0.cInputString = List.replicate cmdMAX_INPUT_SIZE 0)
    (cs : List Int) (hcs : ∀ c ∈ cs, 32 ≤ c ∧ c ≤ 126) (hn : 50 < cs.length)
    (b : Int) (hb : b = 8 ∨ b = 127) :
    ∃ st1 st2, run world cli fuel cs st0 = .ok st1 ∧
      st1.ucInputIndex = 50 ∧ st1.cInputString = cs.take 50 ∧
      step world cli fuel b st1 = .ok st2 ∧
      st2.ucInputIndex = 49 ∧ st2.cInputString = cs.take 49 ++ [0] := by
  have h := run_typed_then world hw cli fuel st0 hidx hbuf cs
    (fun c hc => by have := hcs c hc; omega) []
  rw [List.append_nil, refLine_printable cs hcs] at h
  have hlen : (cs.take 50).length = 50 := by simp; omega
  have hstep := step_holding world hw cli fuel (cs.take 50) (le_of_eq hlen) b
    (by omega) (by omega) (echoed world cs st0)
  have href : refStep (cs.take 50) b = cs.take 49 := by
    unfold refStep
    have hnp : ¬ (0x20 ≤ b ∧ b ≤ 0x7E) := by omega
    rw [if_neg hnp, if_pos hb, List.dropLast_eq_take, hlen, List.take_take]
    rfl
  rw [href] at hstep
  have hlen49 : (cs.take 49).length = 49 := by simp; omega
  refine ⟨_, _, h, ?_, ?_, hstep, ?_, ?_⟩
  · simp only [holding]; exact hlen
  · simp only [holding, hlen, cmdMAX_INPUT_SIZE]; simp
  · simp only [holding]; exact hlen49
  · simp only [holding, hlen49, cmdMAX_INPUT_SIZE]; rfl

/-- C6, witness: 55 letters a, then a backspace. -/
theorem C6_overflow_truncation_witness :
    ∃ st1 st2, run (fun _ => idealEnv) okInterpreter 1 (List.replicate 55 97) (initial () uart0) =
        .ok st1 ∧
      st1.ucInputIndex = 50 ∧ st1.cInputString = (List.replicate 55 97).take 50 ∧
      step (fun _ => idealEnv) okInterpreter 1 8 st1 = .ok st2 ∧
      st2.ucInputIndex = 49 ∧ st2.cInputString = (List.replicate 55 97).take 49 ++ [0] :=
  C6_overflow_truncation (fun _ => idealEnv) idealEnv_live okInterpreter 1 (initial () uart0)
    rfl rfl (List.replicate 55 97)
    (fun c hc => by rw [List.eq_of_mem_replicate hc]; decide) (by simp) 8 (by decide)

/-- A terminator received when the input array holds no NUL: once the echo and the line
break have returned, reading the command line runs past the end of the array, before
any interpreter call is made. -/
theorem step_terminator_overrun (world : Nat → TxEnv) (hw : ∀ n, (world n).live)
    (cli : Interpreter σ) (fuel : Nat) (hfuel : 0 < fuel) (t : Int) (ht : t = 10 ∨ t = 13)
    (st : Console σ) (hidx : st.ucInputIndex ≠ 0) (hnone : cstr st.cInputString = none) :
    ∃ st1, step world cli fuel t st = .fault .outOfBounds st1 ∧
      st1.ucInputIndex = st.ucInputIndex ∧ st1.cInputString = st.cInputString ∧
      st1.cLastInputString = st.cLastInputString ∧
      dispatched st1.uart.trace = dispatched st.uart.trace := by
  obtain ⟨fuel, rfl⟩ : ∃ f, fuel = f + 1 := ⟨fuel - 1, by omega⟩
  unfold step
  rw [transfer_ok world hw]
  simp only [andThen_ok, ht, if_true]
  unfold lineComplete
  rw [transfer_ok world hw]
  simp only [andThen_ok]
  have hrep : repeatLast (transfer world pcNewLine (toU16 (strlen pcNewLine))
      (transfer world [t] 1 st).state).state =
      .ok (transfer world pcNewLine (toU16 (strlen pcNewLine))
        (transfer world [t] 1 st).state).state := by
    unfold repeatLast
    simp [hidx]
  rw [hrep]
  simp only [andThen_ok, drainLoop, transfer_input, hnone, andThen_fault]
  exact ⟨_, rfl, by simp, by simp, by simp, by simp⟩

/-- C7, at the failing input: 55 printable characters (here 55 times the letter a) and a
carriage return.  The input array then holds 50 characters and no NUL, so the command
line cannot be read from it: the task stops with an access outside the array, no line
has been passed to the interpreter and `cLastInputString` has not been written. -/
theorem C7_overlong_line_overruns :
    ∃ st, run (fun _ => idealEnv) okInterpreter 1 (List.replicate 55 97 ++ [13])
        (initial () uart0) = .fault .outOfBounds st ∧
      st.ucInputIndex = 50 ∧ st.cInputString = List.replicate 50 97 ∧
      cstr st.cInputString = none ∧ dispatched st.uart.trace = [] ∧
      st.cLastInputString = List.replicate cmdMAX_INPUT_SIZE 0 := by
  have hpr : ∀ c ∈ List.replicate 55 (97 : Int), 32 ≤ c ∧ c ≤ 126 := fun c hc => by
    rw [List.eq_of_mem_replicate hc]; decide
  have h := run_typed_then (fun _ => idealEnv) idealEnv_live okInterpreter 1 (initial () uart0)
    rfl rfl (List.replicate 55 97) (fun c hc => by have := hpr c hc; omega) [13]
  have hr : refLine (List.replicate 55 97) = List.replicate 50 97 := by
    rw [refLine_printable _ hpr, List.take_replicate]
    rfl
  have hin : (holding (List.replicate 50 (97 : Int))
      (echoed (fun _ => idealEnv) (List.replicate 55 97) (initial () uart0))).cInputString =
      List.replicate 50 97 := by
    simp only [holding, List.length_replicate, cmdMAX_INPUT_SIZE]
    simp
  have hnone : cstr (List.replicate 50 (97 : Int)) = none :=
    cstr_eq_none _ (fun x hx => by rw [List.eq_of_mem_replicate hx]; decide)
  rw [hr, run_singleton] at h
  obtain ⟨st1, e, i1, i2, i3, i4⟩ := step_terminator_overrun (fun _ => idealEnv) idealEnv_live
    okInterpreter 1 (by decide) 13 (by decide)
    (holding (List.replicate 50 (97 : Int))
      (echoed (fun _ => idealEnv) (List.replicate 55 97) (initial () uart0)))
    (by simp [holding]) (by rw [hin]; exact hnone)
  refine ⟨st1, by rw [h, e], ?_, by rw [i2, hin], by rw [i2, hin]; exact hnone, ?_, ?_⟩
  · rw [i1]; simp [holding]
  · rw [i4]; simp only [holding, echoed_dispatched]; rfl
  · rw [i3]; simp only [holding, echoed_last, initial]

theorem take_toU16_strlen (p : List Int) (h : strlen p < 65536) :
    p.take (toU16 (strlen p)) = p.takeWhile (· ≠ 0) := by
  unfold toU16
  rw [Nat.mod_eq_of_lt h, take_strlen]

theorem drainBytes_eq (cli : Interpreter σ) (line : List Int) (s : σ) (k : Nat)
    (hfit : ∀ j, j ≤ k → strlen (resultAt cli line s j).out < 65536) :
    drainBytes cli line s k =
      ((List.range (k + 1)).map fun j => (resultAt cli line s j).out.takeWhile (· ≠ 0)).flatten := by
  unfold drainBytes
  congr 1
  apply List.map_congr_left
  intro j hj
  exact take_toU16_strlen _ (hfit j (by have := List.mem_range.mp hj; omega))

theorem take_pcNewLine : pcNewLine.take (toU16 (strlen pcNewLine)) = lit "\r\n" := by decide

theorem take_pcEndOfOutputMessage :
    pcEndOfOutputMessage.take (toU16 (strlen pcEndOfOutputMessage)) =
      lit "\r\n[Press ENTER to execute the previous command again]\r\n>" := by decide

/-- C8 (per-line output framing): when every `UART_Transfer` obtains the mutex and is
served by the hardware, the bytes sent while one terminator `t` is handled are the echo
of `t`, the line break, the interpreter's output chunks (each the content of the output
buffer up to its NUL) in call order, and the fixed trailer, with nothing in between.
Here `line` is the line the terminator dispatches, the interpreter finishes it after
`k + 1` calls, and each chunk is shorter than 65536 bytes, the range of the 16-bit
length passed to `UART_Transfer`. -/
theorem C8_output_framing (world : Nat → TxEnv) (hw : ∀ n, (world n).sends)
    (cli : Interpreter σ) (fuel : Nat) (t : Int) (ht : t = 10 ∨ t = 13) (st : Console σ)
    (line : List Int) (k : Nat)
    (hin : st.cInputString.length = cmdMAX_INPUT_SIZE)
    (hlast : st.cLastInputString.length = cmdMAX_INPUT_SIZE)
    (hline : pendingLine st = some line)
    (hmore : ∀ j, j < k → (resultAt cli line st.cli j).more = true)
    (hdone : (resultAt cli line st.cli k).more = false) (hk : k < fuel)
    (hfit : ∀ j, j ≤ k → strlen (resultAt cli line st.cli j).out < 65536) :
    ∃ st1, step world cli fuel t st = .ok st1 ∧
      wire st1.uart.trace = wire st.uart.trace ++
        ([t] ++ lit "\r\n" ++
          ((List.range (k + 1)).map fun j =>
            (resultAt cli line st.cli j).out.takeWhile (· ≠ 0)).flatten ++
          lit "\r\n[Press ENTER to execute the previous command again]\r\n>") := by
  obtain ⟨st1, e, -, -, -, -, -, -, -, i8⟩ := step_terminator_ok world (live_of_sends hw) cli fuel
    t ht st line k hin hlast hline ⟨hmore, hdone⟩ hk
  refine ⟨st1, e, ?_⟩
  rw [i8 hw, take_pcNewLine, take_pcEndOfOutputMessage, drainBytes_eq cli line st.cli k hfit]
  simp

/-- C8, witness: the input "help" and a carriage return, with an interpreter that
answers "OK".  The run amounts to the iteration for the carriage return in the state
that holds "help"; the echoes of h, e, l, p have been sent before it, and the iteration
sends the carriage return, the line break, "OK" and the trailer. -/
theorem C8_output_framing_witness :
    run (fun _ => idealEnv) okInterpreter 1 (lit "help" ++ [13]) (initial () uart0) =
      step (fun _ => idealEnv) okInterpreter 1 13
        (holding (lit "help") (echoed (fun _ => idealEnv) (lit "help") (initial () uart0))) ∧
    wire (holding (lit "help")
      (echoed (fun _ => idealEnv) (lit "help") (initial () uart0))).uart.trace = lit "help" ∧
    ∃ st1, step (fun _ => idealEnv) okInterpreter 1 13
        (holding (lit "help") (echoed (fun _ => idealEnv) (lit "help") (initial () uart0))) =
          .ok st1 ∧
      wire st1.uart.trace =
        wire (holding (lit "help")
          (echoed (fun _ => idealEnv) (lit "help") (initial () uart0))).uart.trace ++
        ([13] ++ lit "\r\n" ++
          ((List.range (0 + 1)).map fun j =>
            (resultAt okInterpreter (lit "help")
              (holding (lit "help")
                (echoed (fun _ => idealEnv) (lit "help") (initial () uart0))).cli j).out.takeWhile
              (· ≠ 0)).flatten ++
          lit "\r\n[Press ENTER to execute the previous command again]\r\n>") :=
  ⟨by
    rw [run_typed_then (fun _ => idealEnv) idealEnv_live okInterpreter 1 (initial () uart0) rfl rfl
      (lit "help") (by decide) [13], run_singleton]
    rfl,
   by
    show wire (echoed (fun _ => idealEnv) (lit "help") (initial () uart0)).uart.trace = lit "help"
    rw [echoed_wire (fun _ => idealEnv) idealEnv_sends]
    rfl,
   C8_output_framing (fun _ => idealEnv) idealEnv_sends okInterpreter 1 13 (by decide)
    (holding (lit "help") (echoed (fun _ => idealEnv) (lit "help") (initial () uart0)))
    (lit "help") 0 (holding_input_length _ (by decide) _) (by simp [holding, initial])
    (holding_pending _ (by decide) (by decide) (by decide) _)
    (fun _ hj => absurd hj (Nat.not_lt_zero _)) rfl (by decide)
    (fun _ _ => show strlen (lit "OK") < 65536 by decide)⟩

theorem lineEdit_uart (c : Int) (st : Console σ) : (lineEdit c st).state.uart = st.uart := by
  unfold lineEdit storeInput
  split_ifs <;> rfl

theorem repeatLast_uart (st : Console σ) : (repeatLast st).state.uart = st.uart := by
  unfold repeatLast
  split_ifs
  · cases strcpy st.cInputString st.cLastInputString <;> rfl
  · rfl

/-- The drain loop only adds calls to the trace. -/
theorem drainLoop_calls (world : Nat → TxEnv) (cli : Interpreter σ) (fuel : Nat)
    (st : Console σ) :
    ∃ evs, calls (drainLoop world cli fuel st).state.uart.trace = calls st.uart.trace ++ evs := by
  induction fuel generalizing st with
  | zero => exact ⟨[], by simp [drainLoop]⟩
  | succ fuel ih =>
    cases hline : cstr st.cInputString with
    | none => exact ⟨[], by simp [drainLoop, hline]⟩
    | some line =>
      simp only [drainLoop, hline]
      cases ht : transfer world (cli st.cli line).out (toU16 (strlen (cli st.cli line).out))
          { st with cli := (cli st.cli line).next,
                    uart := st.uart.log (.processCommand line) } with
      | fault f st1 =>
        have h1 := congrArg Outcome.state ht
        simp only [state_fault] at h1
        subst h1
        exact ⟨[Event.processCommand line, Event.uartTransfer (cli st.cli line).out
          (toU16 (strlen (cli st.cli line).out))],
          by simp [Uart.log, calls_append, calls]⟩
      | ok st1 =>
        have h1 := congrArg Outcome.state ht
        simp only [state_ok] at h1
        subst h1
        simp only [andThen_ok]
        split_ifs
        · obtain ⟨evs, h⟩ := ih (transfer world (cli st.cli line).out
            (toU16 (strlen (cli st.cli line).out))
            { st with cli := (cli st.cli line).next,
                      uart := st.uart.log (.processCommand line) }).state
          exact ⟨[Event.processCommand line, Event.uartTransfer (cli st.cli line).out
          (toU16 (strlen (cli st.cli line).out))] ++ evs,
            by rw [h]; simp [Uart.log, calls_append, calls]⟩
        · exact ⟨[Event.processCommand line, Event.uartTransfer (cli st.cli line).out
          (toU16 (strlen (cli st.cli line).out))],
            by simp [Uart.log, calls_append, calls]⟩

/-- The branch for a terminator starts with the transfer of the line break. -/
theorem lineComplete_calls (world : Nat → TxEnv) (cli : Interpreter σ) (fuel : Nat)
    (st : Console σ) :
    ∃ rest, calls (lineComplete world cli fuel st).state.uart.trace =
      calls st.uart.trace ++ Event.uartTransfer pcNewLine (toU16 (strlen pcNewLine)) :: rest := by
  unfold lineComplete
  have h1 := transfer_calls world pcNewLine (toU16 (strlen pcNewLine)) st
  cases e1 : transfer world pcNewLine (toU16 (strlen pcNewLine)) st with
  | fault f s1 => rw [e1] at h1; exact ⟨[], by simpa using h1⟩
  | ok s1 =>
    rw [e1] at h1
    simp only [state_ok, andThen_ok] at h1 ⊢
    have h2 := repeatLast_uart s1
    cases e2 : repeatLast s1 with
    | fault f s2 =>
      rw [e2] at h2
      simp only [state_fault] at h2
      exact ⟨[], by simp [h2, h1]⟩
    | ok s2 =>
      rw [e2] at h2
      simp only [state_ok, andThen_ok] at h2 ⊢
      obtain ⟨evs, h3⟩ := drainLoop_calls world cli fuel s2
      cases e3 : drainLoop world cli fuel s2 with
      | fault f s3 =>
        rw [e3] at h3
        simp only [state_fault, andThen_fault] at h3 ⊢
        exact ⟨evs, by rw [h3, h2, h1]; simp⟩
      | ok s3 =>
        rw [e3] at h3
        simp only [state_ok, andThen_ok] at h3 ⊢
        cases strcpy s3.cLastInputString s3.cInputString with
        | none => exact ⟨evs, by rw [state_fault, h3, h2, h1]; simp⟩
        | some b =>
          refine ⟨evs ++ [Event.uartTransfer pcEndOfOutputMessage
            (toU16 (strlen pcEndOfOutputMessage))], ?_⟩
          rw [transfer_calls]
          simp only []
          rw [h3, h2, h1]
          simp

/-- C9 (echo): for every received character `c`, printable or not, stored or not, the
first call of the iteration is `UART_Transfer` of the one byte `c`.  For a character
that is not a terminator it is the only call; for a terminator the next call, if any,
is the transfer of the line break.  Nothing precedes the echo: if the echo call does
not return, the iteration stops there with the index, both arrays and the interpreter
untouched. -/
theorem C9_echo (world : Nat → TxEnv) (cli : Interpreter σ) (fuel : Nat) (c : Int)
    (st : Console σ) :
    (∃ rest, calls (step world cli fuel c st).state.uart.trace =
        calls st.uart.trace ++ Event.uartTransfer [c] 1 :: rest ∧
      (c ≠ 10 → c ≠ 13 → rest = []) ∧
      (∀ e, rest.head? = some e → e = Event.uartTransfer (lit "\r\n") 2)) ∧
    ((transfer world [c] 1 st).isOk = false →
      (step world cli fuel c st).state.ucInputIndex = st.ucInputIndex ∧
      (step world cli fuel c st).state.cInputString = st.cInputString ∧
      (step world cli fuel c st).state.cLastInputString = st.cLastInputString ∧
      (step world cli fuel c st).state.cli = st.cli ∧
      calls (step world cli fuel c st).state.uart.trace =
        calls st.uart.trace ++ [Event.uartTransfer [c] 1]) := by
  unfold step
  have h1 := transfer_calls world [c] 1 st
  have hnl : Event.uartTransfer pcNewLine (toU16 (strlen pcNewLine)) =
      Event.uartTransfer (lit "\r\n") 2 := by decide
  cases e1 : transfer world [c] 1 st with
  | fault f s1 =>
    have hs := congrArg Outcome.state e1
    simp only [state_fault] at hs
    subst hs
    refine ⟨⟨[], by simp, fun _ _ => rfl, by simp⟩, fun _ => ?_⟩
    simp
  | ok s1 =>
    rw [e1] at h1
    simp only [state_ok, andThen_ok, isOk_ok] at h1 ⊢
    refine ⟨?_, fun h => by simp at h⟩
    by_cases hterm : c = 10 ∨ c = 13
    · simp only [hterm, if_true]
      obtain ⟨rest, hr⟩ := lineComplete_calls world cli fuel s1
      refine ⟨Event.uartTransfer pcNewLine (toU16 (strlen pcNewLine)) :: rest,
        by rw [hr, h1]; simp, ?_, ?_⟩
      · intro h10 h13
        rcases hterm with h | h
        · exact absurd h h10
        · exact absurd h h13
      · intro e he
        simp only [List.head?_cons, Option.some.injEq] at he
        rw [← he, hnl]
    · simp only [hterm, if_false]
      refine ⟨[], by rw [lineEdit_uart, h1], fun _ _ => rfl, by simp⟩

/-- C10 (transmit timeout is a no-op): when `xSemaphoreTake` does not return `pdPASS`,
`UART_Transfer` returns after that single attempt: the trace grows by the entry and the
failed take only (no `HAL_UART_Transmit_DMA`, no `xSemaphoreGive`, no second take),
`sUart_tx_ready` keeps its value and no byte is sent. -/
theorem C10_transmit_timeout (env : TxEnv) (pData : List Int) (Size : Nat) (u : Uart)
    (h : env.take = false) :
    UART_Transfer env pData Size u =
      .ok { sUart_tx_ready := u.sUart_tx_ready, nTransfers := u.nTransfers + 1,
            trace := u.trace ++ [Event.uartTransfer pData Size, Event.semTake false] } ∧
    wire (UART_Transfer env pData Size u).state.trace = wire u.trace := by
  unfold UART_Transfer
  simp [h, wire_append, wire]

/-- C10, witness: a transfer of "hi" while the mutex is held elsewhere. -/
theorem C10_transmit_timeout_witness :
    UART_Transfer { take := false, issue := [true], irqs := [UsartInstance.USART1] }
        (lit "hi") 2 uart0 =
      .ok { sUart_tx_ready := uart0.sUart_tx_ready, nTransfers := uart0.nTransfers + 1,
            trace := uart0.trace ++ [Event.uartTransfer (lit "hi") 2, Event.semTake false] } ∧
    wire (UART_Transfer { take := false, issue := [true], irqs := [UsartInstance.USART1] }
        (lit "hi") 2 uart0).state.trace = wire uart0.trace :=
  C10_transmit_timeout { take := false, issue := [true], irqs := [UsartInstance.USART1] }
    (lit "hi") 2 uart0 rfl


/-! ### The transmit routine in detail -/

/-- When the peripheral eventually accepts, the issue loop makes one rejected call for
each busy result and then the accepted call, and changes nothing but the trace. -/
theorem issueLoop_exact (p : List Int) (n : Nat) (rs : List Bool) (u : Uart) (h : true ∈ rs) :
    issueLoop p n rs u = .ok { u with trace := u.trace ++
      ((rs.takeWhile (· = false)).map fun _ => Event.transmitDMA p n false) ++
      [Event.transmitDMA p n true] } := by
  induction rs generalizing u with
  | nil => simp at h
  | cons r rs ih =>
    cases r with
    | true => simp [issueLoop, Uart.log]
    | false =>
      have hrest : true ∈ rs := by simpa using h
      simp only [issueLoop, Bool.false_eq_true, if_false]
      rw [ih _ hrest]
      simp [Uart.log]

/-- With the flag clear on entry and a completion of `USART1` among the interrupts, the
wait loop runs the callback for every interrupt up to that completion and exits with
the flag set. -/
theorem spinLoop_exact (irqs : List UsartInstance) (u : Uart) (h0 : u.sUart_tx_ready = 0)
    (h : UsartInstance.USART1 ∈ irqs) :
    spinLoop irqs u = .ok { u with sUart_tx_ready := 1, trace := u.trace ++
      ((irqs.takeWhile (· ≠ UsartInstance.USART1)).map Event.txCplt) ++
      [Event.txCplt UsartInstance.USART1] } := by
  induction irqs generalizing u with
  | nil => simp at h
  | cons i rest ih =>
    have hne : u.sUart_tx_ready ≠ 1 := by omega
    by_cases hi : i = UsartInstance.USART1
    · subst hi
      cases rest <;> simp [spinLoop, hne, HAL_UART_TxCpltCallback, Uart.log]
    · have hmem : UsartInstance.USART1 ∈ rest := by
        rcases List.mem_cons.mp h with h | h
        · exact absurd h.symm hi
        · exact h
      simp only [spinLoop, hne, ne_eq, not_false_eq_true, if_true]
      have hcb : HAL_UART_TxCpltCallback i (u.log (.txCplt i)) = u.log (.txCplt i) := by
        simp [HAL_UART_TxCpltCallback, hi]
      rw [hcb, ih _ (by simpa [Uart.log] using h0) hmem]
      simp [Uart.log, hi]

/-- C11 (transmit success postcondition): when the mutex is obtained, the peripheral
accepts the transfer after finitely many busy results and the completion of `USART1`
is then signalled, `UART_Transfer` returns with `sUart_tx_ready` equal to 1.  Its
events are, in this order: the take, one rejected `HAL_UART_Transmit_DMA` call per busy
result, exactly one accepted call, with the same `pData` and `Size`, the completion
interrupts up to the one of `USART1`, and exactly one give.  The flag is cleared before
the first issue attempt: the routine behaves as if the flag were 0 on entry, and the
wait consumes the interrupts up to the completion of `USART1` whatever its value was. -/
theorem C11_transmit_success (env : TxEnv) (pData : List Int) (Size : Nat) (u : Uart)
    (h : env.sends) :
    UART_Transfer env pData Size u =
      .ok { sUart_tx_ready := 1, nTransfers := u.nTransfers + 1,
            trace := u.trace ++ [Event.uartTransfer pData Size, Event.semTake true] ++
              ((env.issue.takeWhile (· = false)).map fun _ =>
                Event.transmitDMA pData Size false) ++
              [Event.transmitDMA pData Size true] ++
              ((env.irqs.takeWhile (· ≠ UsartInstance.USART1)).map Event.txCplt) ++
              [Event.txCplt UsartInstance.USART1, Event.semGive] } ∧
    UART_Transfer env pData Size { u with sUart_tx_ready := 0 } =
      UART_Transfer env pData Size u ∧
    UART_Transfer env pData Size { u with sUart_tx_ready := 1 } =
      UART_Transfer env pData Size u := by
  obtain ⟨htake, hi, hq⟩ := h
  refine ⟨?_, by unfold UART_Transfer; simp only [htake, if_true],
    by unfold UART_Transfer; simp only [htake, if_true]⟩
  unfold UART_Transfer
  simp only [htake, if_true]
  rw [issueLoop_exact _ _ _ _ hi]
  simp only [andThen_ok]
  rw [spinLoop_exact _ _ rfl hq]
  simp [Uart.log]

/-- C11, witness: two busy results before the peripheral accepts, and a completion of
another peripheral before the one of `USART1`; the flag is 1 on entry. -/
theorem C11_transmit_success_witness :
    UART_Transfer
        { take := true, issue := [false, false, true],
          irqs := [UsartInstance.other 2, UsartInstance.USART1] }
        (lit "hi") 2 { sUart_tx_ready := 1, nTransfers := 0, trace := [] } =
      .ok { sUart_tx_ready := 1, nTransfers := 1,
            trace := [Event.uartTransfer (lit "hi") 2, Event.semTake true,
              Event.transmitDMA (lit "hi") 2 false, Event.transmitDMA (lit "hi") 2 false,
              Event.transmitDMA (lit "hi") 2 true, Event.txCplt (UsartInstance.other 2),
              Event.txCplt UsartInstance.USART1, Event.semGive] } :=
  (C11_transmit_success
    { take := true, issue := [false, false, true],
      irqs := [UsartInstance.other 2, UsartInstance.USART1] }
    (lit "hi") 2 { sUart_tx_ready := 1, nTransfers := 0, trace := [] }
    ⟨rfl, by decide, by decide⟩).1

/-- C12 (completion callback): `HAL_UART_TxCpltCallback` sets `sUart_tx_ready` to 1 when
the handle's instance is `USART1` and changes nothing when it is another instance; in
either case the trace and the call counter are untouched and the flag is never set to 0
(it is 0 afterwards only if it was 0 before and the instance is not `USART1`). -/
theorem C12_completion_callback (inst : UsartInstance) (u : Uart) :
    (inst = UsartInstance.USART1 →
      HAL_UART_TxCpltCallback inst u = { u with sUart_tx_ready := 1 }) ∧
    (inst ≠ UsartInstance.USART1 → HAL_UART_TxCpltCallback inst u = u) ∧
    (HAL_UART_TxCpltCallback inst u).trace = u.trace ∧
    (HAL_UART_TxCpltCallback inst u).nTransfers = u.nTransfers ∧
    ((HAL_UART_TxCpltCallback inst u).sUart_tx_ready = 0 →
      u.sUart_tx_ready = 0 ∧ inst ≠ UsartInstance.USART1) ∧
    ((HAL_UART_TxCpltCallback inst u).sUart_tx_ready ≠ u.sUart_tx_ready →
      inst = UsartInstance.USART1 ∧ (HAL_UART_TxCpltCallback inst u).sUart_tx_ready = 1) := by
  unfold HAL_UART_TxCpltCallback
  by_cases h : inst = UsartInstance.USART1 <;> simp [h]


/-! ### What a completed iteration has done, whatever the environment -/

theorem outcome_cases {S : Type} (o : Outcome S) :
    o = .ok o.state ∨ ∃ f, o = .fault f o.state := by
  cases o with
  | ok st => exact Or.inl rfl
  | fault f st => exact Or.inr ⟨f, rfl⟩

theorem strcpy_inv (dst src b : List Int) (h : strcpy dst src = some b) :
    ∃ l, cstr src = some l ∧ l.length < dst.length ∧ b = l ++ 0 :: dst.drop (l.length + 1) := by
  unfold strcpy at h
  cases hc : cstr src with
  | none => simp [hc] at h
  | some l =>
    simp only [hc] at h
    by_cases hfit : l.length + 1 ≤ dst.length
    · simp only [hfit, if_true, Option.some.injEq] at h
      exact ⟨l, rfl, by omega, h.symm⟩
    · simp [hfit] at h

theorem lineEdit_last (c : Int) (st : Console σ) :
    (lineEdit c st).state.cLastInputString = st.cLastInputString ∧
    (lineEdit c st).state.cli = st.cli := by
  unfold lineEdit storeInput
  split_ifs <;> exact ⟨rfl, rfl⟩

/-- If the statement that repeats the last command completes, it has changed the input
array only, and the string then found in the input array is the pending line. -/
theorem repeatLast_inv (st st1 : Console σ) (h : repeatLast st = .ok st1) :
    st1.ucInputIndex = st.ucInputIndex ∧ st1.cLastInputString = st.cLastInputString ∧
      st1.cli = st.cli ∧ st1.uart = st.uart ∧
      (∀ line, cstr st1.cInputString = some line → pendingLine st = some line) := by
  unfold repeatLast at h
  unfold pendingLine
  by_cases h0 : st.ucInputIndex = 0
  · simp only [h0, if_true] at h ⊢
    cases hs : strcpy st.cInputString st.cLastInputString with
    | none => simp [hs] at h
    | some b =>
      simp only [hs, Outcome.ok.injEq] at h
      subst h
      obtain ⟨l, h1, -, h3⟩ := strcpy_inv _ _ _ hs
      refine ⟨rfl, rfl, rfl, rfl, fun line hline => ?_⟩
      simp only [h3] at hline
      rw [cstr_append_zero _ _ (cstr_some _ _ h1).2.2] at hline
      rw [h1, ← hline]
  · simp only [h0, if_false, Outcome.ok.injEq] at h ⊢
    subst h
    exact ⟨rfl, rfl, rfl, rfl, fun line hline => hline⟩

/-- If the drain loop completes, it has made at least one interpreter call. -/
theorem drainLoop_inv (world : Nat → TxEnv) (cli : Interpreter σ) (fuel : Nat)
    (st st1 : Console σ) (h : drainLoop world cli fuel st = .ok st1) :
    ∃ line m, cstr st.cInputString = some line ∧ 0 < m ∧
      st1.ucInputIndex = st.ucInputIndex ∧ st1.cInputString = st.cInputString ∧
      st1.cLastInputString = st.cLastInputString ∧
      dispatched st1.uart.trace = dispatched st.uart.trace ++ List.replicate m line := by
  cases fuel with
  | zero => simp [drainLoop] at h
  | succ fuel =>
    cases hline : cstr st.cInputString with
    | none => simp [drainLoop, hline] at h
    | some line =>
      obtain ⟨h1, h2, h3, m, hm, h4⟩ := drainLoop_state world cli line (fuel + 1) st hline
      rw [h] at h1 h2 h3 h4
      exact ⟨line, m, rfl, hm (Nat.succ_pos _), h1, h2, h3, h4⟩

/-- If the branch for a terminator completes, it has dispatched the pending line at
least once, saved it in `cLastInputString`, set the index to 0 and cleared the input
array. -/
theorem lineComplete_inv (world : Nat → TxEnv) (cli : Interpreter σ) (fuel : Nat)
    (st st1 : Console σ) (h : lineComplete world cli fuel st = .ok st1) :
    ∃ line m, pendingLine st = some line ∧ 0 < m ∧ line.length < st.cLastInputString.length ∧
      st1.ucInputIndex = 0 ∧ st1.cInputString = List.replicate cmdMAX_INPUT_SIZE 0 ∧
      st1.cLastInputString = line ++ 0 :: st.cLastInputString.drop (line.length + 1) ∧
      dispatched st1.uart.trace = dispatched st.uart.trace ++ List.replicate m line := by
  unfold lineComplete at h
  rcases outcome_cases (transfer world pcNewLine (toU16 (strlen pcNewLine)) st) with e1 | ⟨f, e1⟩
  swap
  · rw [e1] at h; simp at h
  rw [e1] at h
  simp only [andThen_ok] at h
  rcases outcome_cases (repeatLast (transfer world pcNewLine (toU16 (strlen pcNewLine)) st).state)
    with e2 | ⟨f, e2⟩
  swap
  · rw [e2] at h; simp at h
  rw [e2] at h
  simp only [andThen_ok] at h
  obtain ⟨r1, r2, r3, r4, r5⟩ := repeatLast_inv _ _ e2
  rcases outcome_cases (drainLoop world cli fuel
    (repeatLast (transfer world pcNewLine (toU16 (strlen pcNewLine)) st).state).state)
    with e3 | ⟨f, e3⟩
  swap
  · rw [e3] at h; simp at h
  rw [e3] at h
  simp only [andThen_ok] at h
  obtain ⟨line, m, d1, d2, d3, d4, d5, d6⟩ := drainLoop_inv _ _ _ _ _ e3
  have hp : pendingLine st = some line := by
    have := r5 line d1
    simpa [pendingLine] using this
  cases hs : strcpy (drainLoop world cli fuel
      (repeatLast (transfer world pcNewLine (toU16 (strlen pcNewLine)) st).state).state
      ).state.cLastInputString
    (drainLoop world cli fuel
      (repeatLast (transfer world pcNewLine (toU16 (strlen pcNewLine)) st).state).state
      ).state.cInputString with
  | none => rw [hs] at h; simp at h
  | some b =>
    rw [hs] at h
    simp only [] at h
    obtain ⟨l, s1, s2, s3⟩ := strcpy_inv _ _ _ hs
    rw [d4, d1] at s1
    simp only [Option.some.injEq] at s1
    subst s1
    rw [d5, r2, transfer_last] at s2 s3
    have hst := congrArg Outcome.state h
    simp only [state_ok] at hst
    refine ⟨line, m, hp, d2, s2, ?_, ?_, ?_, ?_⟩
    · rw [← hst]; simp
    · rw [← hst]; simp
    · rw [← hst]; simp [s3]
    · rw [← hst]
      simp only [transfer_dispatched]
      rw [d6, r4, transfer_dispatched]

/-- The same for a whole iteration of the task loop on a terminator. -/
theorem step_terminator_inv (world : Nat → TxEnv) (cli : Interpreter σ) (fuel : Nat) (t : Int)
    (ht : t = 10 ∨ t = 13) (st st1 : Console σ) (h : step world cli fuel t st = .ok st1) :
    ∃ line m, pendingLine st = some line ∧ 0 < m ∧ line.length < st.cLastInputString.length ∧
      st1.ucInputIndex = 0 ∧ st1.cInputString = List.replicate cmdMAX_INPUT_SIZE 0 ∧
      st1.cLastInputString = line ++ 0 :: st.cLastInputString.drop (line.length + 1) ∧
      dispatched st1.uart.trace = dispatched st.uart.trace ++ List.replicate m line := by
  unfold step at h
  rcases outcome_cases (transfer world [t] 1 st) with e1 | ⟨f, e1⟩
  swap
  · rw [e1] at h; simp at h
  rw [e1] at h
  simp only [andThen_ok, ht, if_true] at h
  obtain ⟨line, m, h1, h2, h3, h4, h5, h6, h7⟩ := lineComplete_inv _ _ _ _ _ h
  refine ⟨line, m, by simpa [pendingLine] using h1, h2, by simpa using h3, h4, h5,
    by simpa using h6, by simpa using h7⟩

/-- An iteration for a character that is not a terminator never writes
`cLastInputString`, whatever the environment does. -/
theorem step_edit_last (world : Nat → TxEnv) (cli : Interpreter σ) (fuel : Nat) (c : Int)
    (h10 : c ≠ 10) (h13 : c ≠ 13) (st : Console σ) :
    (step world cli fuel c st).state.cLastInputString = st.cLastInputString ∧
    (step world cli fuel c st).state.cli = st.cli ∧
    dispatched (step world cli fuel c st).state.uart.trace = dispatched st.uart.trace := by
  unfold step
  rcases outcome_cases (transfer world [c] 1 st) with e1 | ⟨f, e1⟩
  · rw [e1]
    simp only [andThen_ok, h10, h13, or_self, if_false]
    refine ⟨by rw [(lineEdit_last c _).1]; simp, by rw [(lineEdit_last c _).2]; simp, ?_⟩
    rw [lineEdit_uart]; simp
  · rw [e1]
    simp


/-! ### The last command buffer -/

theorem lastLine_append_replicate (tr1 tr2 : List Event) (line : List Int) (m : Nat) (hm : 0 < m)
    (h : dispatched tr2 = dispatched tr1 ++ List.replicate m line) : lastLine tr2 = line := by
  obtain ⟨k, rfl⟩ : ∃ k, m = k + 1 := ⟨m - 1, by omega⟩
  unfold lastLine
  rw [h, List.replicate_succ', ← List.append_assoc, List.getLast?_append]
  simp

theorem lastLine_congr (tr1 tr2 : List Event) (h : dispatched tr2 = dispatched tr1) :
    lastLine tr2 = lastLine tr1 := by
  unfold lastLine
  rw [h]

theorem pendingLine_nonzero (st : Console σ) (line : List Int) (h : pendingLine st = some line) :
    ∀ x ∈ line, x ≠ 0 := by
  unfold pendingLine at h
  split_ifs at h
  · exact (cstr_some _ _ h).2.2
  · exact (cstr_some _ _ h).2.2

/-- Whenever the task is back at the head of its loop, `cLastInputString` holds the
line most recently passed to the interpreter. -/
theorem run_lastSaved (world : Nat → TxEnv) (cli : Interpreter σ) (fuel : Nat) (input : List Int)
    (st st1 : Console σ) (hlen : st.cLastInputString.length = cmdMAX_INPUT_SIZE)
    (hsaved : cstr st.cLastInputString = some (lastLine st.uart.trace))
    (h : run world cli fuel input st = .ok st1) :
    st1.cLastInputString.length = cmdMAX_INPUT_SIZE ∧
      cstr st1.cLastInputString = some (lastLine st1.uart.trace) := by
  induction input generalizing st with
  | nil =>
    simp only [run, Outcome.ok.injEq] at h
    subst h
    exact ⟨hlen, hsaved⟩
  | cons c cs ih =>
    simp only [run] at h
    rcases outcome_cases (step world cli fuel c st) with e | ⟨f, e⟩
    swap
    · rw [e] at h; simp at h
    rw [e] at h
    simp only [andThen_ok] at h
    by_cases hterm : c = 10 ∨ c = 13
    · obtain ⟨line, m, h1, h2, h3, -, -, h6, h7⟩ := step_terminator_inv _ _ _ _ hterm _ _ e
      refine ih _ ?_ ?_ h
      · rw [h6, length_strcpy _ _ h3, hlen]
      · rw [h6, cstr_append_zero _ _ (pendingLine_nonzero st line h1),
          lastLine_append_replicate _ _ line m h2 h7]
    · have h10 : c ≠ 10 := fun hc => hterm (Or.inl hc)
      have h13 : c ≠ 13 := fun hc => hterm (Or.inr hc)
      obtain ⟨e1, -, e3⟩ := step_edit_last world cli fuel c h10 h13 st
      refine ih _ (by rw [e1]; exact hlen) ?_ h
      rw [e1, lastLine_congr _ _ e3]
      exact hsaved

/-- With responsive hardware and an interpreter that finishes every line, the task gets
through every input whose completed lines are shorter than 50 characters. -/
theorem run_progress (world : Nat → TxEnv) (hw : ∀ n, (world n).live) (cli : Interpreter σ)
    (fuel : Nat) (hfin : ∀ s line, ∃ k, k < fuel ∧ DrainsIn cli line s k) (input : List Int)
    (l : List Int) (st : Console σ) (hl : l.length ≤ 50) (hpr : ∀ x ∈ l, 32 ≤ x ∧ x ≤ 126)
    (hlen : st.cLastInputString.length = cmdMAX_INPUT_SIZE)
    (hc : ∃ P, cstr st.cLastInputString = some P) (hs : shortLines l input = true) :
    ∃ st1, run world cli fuel input (holding l st) = .ok st1 := by
  induction input generalizing l st with
  | nil => exact ⟨_, rfl⟩
  | cons c cs ih =>
    by_cases hterm : c = 10 ∨ c = 13
    · simp only [shortLines, hterm, if_true, Bool.and_eq_true, decide_eq_true_eq] at hs
      obtain ⟨P, hP⟩ := hc
      have hpend : ∃ line, pendingLine (holding l st) = some line := by
        by_cases hnil : l = []
        · subst hnil
          exact ⟨P, by simp [pendingLine, holding, hP]⟩
        · exact ⟨l, holding_pending l hnil hs.1 hpr st⟩
      obtain ⟨line, hline⟩ := hpend
      obtain ⟨k, hk, hd⟩ := hfin st.cli line
      obtain ⟨st1, e, i1, i2, i3, -, -, -, -, -⟩ := step_terminator_ok world hw cli fuel c hterm
        (holding l st) line k (holding_input_length l hl st) (by simpa [holding] using hlen)
        hline (by simpa [holding] using hd) hk
      have hfit : line.length < st.cLastInputString.length := by
        unfold pendingLine at hline
        split_ifs at hline with h0
        · exact (cstr_some _ _ hline).2.1
        · have := (cstr_some _ _ hline).2.1
          rw [holding_input_length l hl st] at this
          rw [hlen]; exact this
      have hst1 : holding ([] : List Int) st1 = st1 := holding_nil_of_empty st1 i1 i2
      obtain ⟨st2, e2⟩ := ih [] st1 (by simp) (by simp)
        (by rw [i3]; simp only [holding]; rw [length_strcpy _ _ hfit, hlen])
        ⟨line, by rw [i3]; exact cstr_append_zero _ _ (pendingLine_nonzero _ line hline)⟩ hs.2
      rw [hst1] at e2
      exact ⟨st2, by simp [run, e, e2]⟩
    · have h10 : c ≠ 10 := fun hc => hterm (Or.inl hc)
      have h13 : c ≠ 13 := fun hc => hterm (Or.inr hc)
      simp only [shortLines, hterm, if_false] at hs
      obtain ⟨st2, e2⟩ := ih (refStep l c) (transfer world [c] 1 st).state
        (refStep_length_le l c hl) (refStep_printable l c hpr) (by simpa using hlen)
        (by simpa using hc) hs
      exact ⟨st2, by simp [run, step_holding world hw cli fuel l hl c h10 h13, e2]⟩

/-- With responsive hardware, an iteration for a terminator that does not complete (the
pending line cannot be read, or the drain loop does not finish) has not written
`cLastInputString`. -/
theorem step_terminator_fault_last (world : Nat → TxEnv) (hw : ∀ n, (world n).live)
    (cli : Interpreter σ) (fuel : Nat) (t : Int) (ht : t = 10 ∨ t = 13) (st : Console σ)
    (h : (step world cli fuel t st).isOk = false) :
    (step world cli fuel t st).state.cLastInputString = st.cLastInputString := by
  unfold step at h ⊢
  rw [transfer_ok world hw] at h ⊢
  simp only [andThen_ok, ht, if_true] at h ⊢
  unfold lineComplete at h ⊢
  rw [transfer_ok world hw] at h ⊢
  simp only [andThen_ok] at h ⊢
  rcases outcome_cases (repeatLast (transfer world pcNewLine (toU16 (strlen pcNewLine))
    (transfer world [t] 1 st).state).state) with e2 | ⟨f, e2⟩
  · obtain ⟨-, r2, -, -, -⟩ := repeatLast_inv _ _ e2
    rw [e2] at h ⊢
    simp only [andThen_ok] at h ⊢
    have hfr := drainLoop_frame world cli fuel (repeatLast (transfer world pcNewLine
      (toU16 (strlen pcNewLine)) (transfer world [t] 1 st).state).state).state
    rcases outcome_cases (drainLoop world cli fuel (repeatLast (transfer world pcNewLine
      (toU16 (strlen pcNewLine)) (transfer world [t] 1 st).state).state).state) with e3 | ⟨f, e3⟩
    · rw [e3] at h ⊢
      simp only [andThen_ok] at h ⊢
      cases hs : strcpy (drainLoop world cli fuel (repeatLast (transfer world pcNewLine
          (toU16 (strlen pcNewLine)) (transfer world [t] 1 st).state).state).state
          ).state.cLastInputString
        (drainLoop world cli fuel (repeatLast (transfer world pcNewLine
          (toU16 (strlen pcNewLine)) (transfer world [t] 1 st).state).state).state
          ).state.cInputString with
      | none =>
        simp only [state_fault]
        rw [hfr.2.2, r2]; simp
      | some b =>
        rw [hs] at h
        simp only [] at h
        rw [transfer_ok world hw] at h
        simp at h
    · rw [e3]
      simp only [andThen_fault, state_fault]
      rw [hfr.2.2, r2]; simp
  · rw [e2]
    simp only [andThen_fault, state_fault]
    have : (repeatLast (transfer world pcNewLine (toU16 (strlen pcNewLine))
        (transfer world [t] 1 st).state).state).state.cLastInputString =
        (transfer world pcNewLine (toU16 (strlen pcNewLine))
          (transfer world [t] 1 st).state).state.cLastInputString := by
      unfold repeatLast
      split_ifs
      · cases strcpy _ _ <;> rfl
      · rfl
    rw [this]; simp


/-- C14 (last command buffer invariant).  First part: whenever the task started with
both arrays zero and no line dispatched is back at the head of its loop, the string in
`cLastInputString` is the line most recently passed to the interpreter, or the empty
line if there was no call yet.  Second part: an iteration for a character that is not a
terminator never writes `cLastInputString`.  Third part: with responsive hardware, an
iteration for a terminator that does not run to completion has not written it either,
so the one write per completed line comes after the drain loop.  Fourth part: with
responsive hardware and an interpreter that finishes every line, the task does get
through every input whose completed lines are shorter than 50 characters. -/
theorem C14_last_command_invariant (world : Nat → TxEnv) (cli : Interpreter σ) (fuel : Nat) :
    (∀ (s0 : σ) (u : Uart) (input : List Int) (st : Console σ),
      dispatched u.trace = [] → run world cli fuel input (initial s0 u) = .ok st →
      cstr st.cLastInputString = some (lastLine st.uart.trace)) ∧
    (∀ (c : Int) (st : Console σ), c ≠ 10 → c ≠ 13 →
      (step world cli fuel c st).state.cLastInputString = st.cLastInputString) ∧
    ((∀ n, (world n).live) → ∀ (t : Int) (st : Console σ), t = 10 ∨ t = 13 →
      (step world cli fuel t st).isOk = false →
      (step world cli fuel t st).state.cLastInputString = st.cLastInputString) ∧
    ((∀ n, (world n).live) → (∀ s line, ∃ k, k < fuel ∧ DrainsIn cli line s k) →
      ∀ (s0 : σ) (u : Uart) (input : List Int), shortLines [] input = true →
      ∃ st, run world cli fuel input (initial s0 u) = .ok st) := by
  refine ⟨?_, ?_, ?_, ?_⟩
  · intro s0 u input st hu h
    have hl : lastLine (initial s0 u).uart.trace = [] := by
      show lastLine u.trace = []
      unfold lastLine
      rw [hu]
      rfl
    refine (run_lastSaved world cli fuel input (initial s0 u) st (by simp [initial]) ?_ h).2
    rw [hl]
    exact cstr_append_zero [] (List.replicate 49 0) (by simp)
  · intro c st h10 h13
    exact (step_edit_last world cli fuel c h10 h13 st).1
  · intro hw t st ht h
    exact step_terminator_fault_last world hw cli fuel t ht st h
  · intro hw hfin s0 u input hs
    have h := run_progress world hw cli fuel hfin input [] (initial s0 u) (by simp) (by simp)
      (by simp [initial]) ⟨[], cstr_append_zero [] (List.replicate 49 0) (by simp)⟩ hs
    rw [holding_nil_of_empty (initial s0 u) rfl rfl] at h
    exact h

/-- C14, witness: the input "hi", carriage return, carriage return, "ab", backspace,
line feed: the task gets through it and `cLastInputString` then holds the line last
passed to the interpreter. -/
theorem C14_last_command_invariant_witness :
    shortLines [] (lit "hi\r\rab\x08\n") = true ∧
    ∃ st, run (fun _ => idealEnv) okInterpreter 1 (lit "hi\r\rab\x08\n") (initial () uart0) =
        .ok st ∧
      cstr st.cLastInputString = some (lastLine st.uart.trace) := by
  refine ⟨by decide, ?_⟩
  obtain ⟨st, e⟩ := (C14_last_command_invariant (fun _ => idealEnv) okInterpreter 1).2.2.2
    idealEnv_live (okInterpreter_drains 1 (by decide)) () uart0 (lit "hi\r\rab\x08\n") (by decide)
  exact ⟨st, e, (C14_last_command_invariant (fun _ => idealEnv) okInterpreter 1).1 () uart0 _ st
    rfl e⟩


/-- C15 (reset after dispatch): whenever an iteration for a terminator completes, that
is, the task is back at the head of its loop, the index is 0 and all 50 bytes of
`cInputString` are 0, whatever the state before (so whatever the line, typed or
repeated) and whatever the environment and the interpreter did.  And the iteration does
complete when the hardware responds, the pending line can be read and the interpreter
finishes it within the fuel. -/
theorem C15_reset_after_dispatch (world : Nat → TxEnv) (cli : Interpreter σ) (fuel : Nat)
    (t : Int) (ht : t = 10 ∨ t = 13) (st : Console σ) :
    (∀ st1, step world cli fuel t st = .ok st1 →
      st1.ucInputIndex = 0 ∧ st1.cInputString = List.replicate cmdMAX_INPUT_SIZE 0) ∧
    ((∀ n, (world n).live) → ∀ (line : List Int) (k : Nat),
      st.cInputString.length = cmdMAX_INPUT_SIZE →
      st.cLastInputString.length = cmdMAX_INPUT_SIZE →
      pendingLine st = some line → DrainsIn cli line st.cli k → k < fuel →
      ∃ st1, step world cli fuel t st = .ok st1 ∧
        st1.ucInputIndex = 0 ∧ st1.cInputString = List.replicate cmdMAX_INPUT_SIZE 0) := by
  constructor
  · intro st1 h
    obtain ⟨line, m, -, -, -, h4, h5, -, -⟩ := step_terminator_inv world cli fuel t ht st st1 h
    exact ⟨h4, h5⟩
  · intro hw line k hin hlast hline hd hk
    obtain ⟨st1, e, i1, i2, -⟩ := step_terminator_ok world hw cli fuel t ht st line k hin hlast
      hline hd hk
    exact ⟨st1, e, i1, i2⟩

/-- C15, witness: a carriage return after "help" has been typed. -/
theorem C15_reset_after_dispatch_witness :
    ∃ st1, step (fun _ => idealEnv) okInterpreter 1 13
        (holding (lit "help") (initial () uart0)) = .ok st1 ∧
      st1.ucInputIndex = 0 ∧ st1.cInputString = List.replicate cmdMAX_INPUT_SIZE 0 :=
  (C15_reset_after_dispatch (fun _ => idealEnv) okInterpreter 1 13 (Or.inr rfl)
    (holding (lit "help") (initial () uart0))).2 idealEnv_live (lit "help") 0
    (holding_input_length _ (by decide) _) (by simp [holding, initial])
    (holding_pending _ (by decide) (by decide) (by decide) _)
    ⟨fun _ hj => absurd hj (Nat.not_lt_zero _), rfl⟩ (by decide)


/-! ### The representation of the line being typed -/

theorem step_holding_inv (world : Nat → TxEnv) (cli : Interpreter σ) (fuel : Nat) (l : List Int)
    (hl : l.length ≤ 50) (c : Int) (h10 : c ≠ 10) (h13 : c ≠ 13) (st s1 : Console σ)
    (h : step world cli fuel c (holding l st) = .ok s1) :
    s1 = holding (refStep l c) (transfer world [c] 1 st).state := by
  unfold step at h
  rcases outcome_cases (transfer world [c] 1 (holding l st)) with e1 | ⟨f, e1⟩
  · rw [e1, transfer_holding] at h
    simp only [andThen_ok, h10, h13, or_self, if_false] at h
    rw [lineEdit_holding l hl c h13] at h
    simp only [Outcome.ok.injEq] at h
    exact h.symm
  · rw [e1] at h
    simp at h

/-- Whenever the task is back at the head of its loop it holds a line of at most 50
printable characters: the index is its length and the array is the line followed by
zeros. -/
theorem run_holding_inv (world : Nat → TxEnv) (cli : Interpreter σ) (fuel : Nat)
    (input : List Int) (l : List Int) (hl : l.length ≤ 50) (hpr : ∀ x ∈ l, 32 ≤ x ∧ x ≤ 126)
    (st st1 : Console σ) (h : run world cli fuel input (holding l st) = .ok st1) :
    ∃ l1, st1 = holding l1 st1 ∧ l1.length ≤ 50 ∧ ∀ x ∈ l1, 32 ≤ x ∧ x ≤ 126 := by
  induction input generalizing l st with
  | nil =>
    simp only [run, Outcome.ok.injEq] at h
    subst h
    exact ⟨l, rfl, hl, hpr⟩
  | cons c cs ih =>
    simp only [run] at h
    rcases outcome_cases (step world cli fuel c (holding l st)) with e | ⟨f, e⟩
    swap
    · rw [e] at h; simp at h
    rw [e] at h
    simp only [andThen_ok] at h
    by_cases hterm : c = 10 ∨ c = 13
    · obtain ⟨-, -, -, -, -, h4, h5, -, -⟩ := step_terminator_inv _ _ _ _ hterm _ _ e
      rw [← holding_nil_of_empty _ h4 h5] at h
      exact ih [] (by simp) (by simp) _ h
    · have h10 : c ≠ 10 := fun hc => hterm (Or.inl hc)
      have h13 : c ≠ 13 := fun hc => hterm (Or.inr hc)
      rw [step_holding_inv world cli fuel l hl c h10 h13 st _ e] at h
      exact ih (refStep l c) (refStep_length_le l c hl) (refStep_printable l c hpr) _ h

/-- C18 (buffer representation invariant): whenever the task started with the input
array zero and index 0 is at the head of its loop, after any sequence of received
characters, the index is at most 50, the bytes of `cInputString` below the index are
all in 0x20..0x7E and the bytes from the index up to byte 49 are all 0. -/
theorem C18_buffer_representation (world : Nat → TxEnv) (cli : Interpreter σ) (fuel : Nat)
    (s0 : σ) (u : Uart) (input : List Int) (st : Console σ)
    (h : run world cli fuel input (initial s0 u) = .ok st) :
    st.ucInputIndex ≤ cmdMAX_INPUT_SIZE ∧ st.cInputString.length = cmdMAX_INPUT_SIZE ∧
    (∀ b ∈ st.cInputString.take st.ucInputIndex, 0x20 ≤ b ∧ b ≤ 0x7E) ∧
    st.cInputString.drop st.ucInputIndex =
      List.replicate (cmdMAX_INPUT_SIZE - st.ucInputIndex) 0 := by
  rw [← holding_nil_of_empty (initial s0 u) rfl rfl] at h
  obtain ⟨l, e, hl, hpr⟩ := run_holding_inv world cli fuel input [] (by simp) (by simp) _ _ h
  have hidx : st.ucInputIndex = l.length := by rw [e]; rfl
  have hbuf : st.cInputString = l ++ List.replicate (cmdMAX_INPUT_SIZE - l.length) 0 := by
    rw [e]; rfl
  refine ⟨?_, ?_, ?_, ?_⟩
  · rw [hidx]; exact hl
  · rw [hbuf]; simp [cmdMAX_INPUT_SIZE]; omega
  · rw [hbuf, hidx, List.take_left']
    · exact hpr
    · rfl
  · rw [hbuf, hidx, List.drop_left']
    rfl

/-- C18, witness: the input "ab", backspace, "c", carriage return, "de", with control
characters and a byte above 0x7F (a negative `signed char`) in between. -/
theorem C18_buffer_representation_witness :
    ∃ st, run (fun _ => idealEnv) okInterpreter 1 [97, 98, 8, 99, 13, 7, 100, -56, 101]
        (initial () uart0) = .ok st ∧
      st.ucInputIndex ≤ cmdMAX_INPUT_SIZE ∧ st.cInputString.length = cmdMAX_INPUT_SIZE ∧
      (∀ b ∈ st.cInputString.take st.ucInputIndex, 0x20 ≤ b ∧ b ≤ 0x7E) ∧
      st.cInputString.drop st.ucInputIndex =
        List.replicate (cmdMAX_INPUT_SIZE - st.ucInputIndex) 0 := by
  have h := run_progress (fun _ => idealEnv) idealEnv_live okInterpreter 1
    (okInterpreter_drains 1 (by decide)) [97, 98, 8, 99, 13, 7, 100, -56, 101] []
    (initial () uart0) (by simp) (by simp) (by simp [initial])
    ⟨[], cstr_append_zero [] (List.replicate 49 0) (by simp)⟩ (by decide)
  rw [holding_nil_of_empty (initial () uart0) rfl rfl] at h
  obtain ⟨st, e⟩ := h
  exact ⟨st, e, C18_buffer_representation (fun _ => idealEnv) okInterpreter 1 () uart0 _ st e⟩


/-! ### Terminators in a row and on the empty line -/

/-- C19 (CR-LF line endings dispatch twice): after a non-empty line L shorter than 50
characters has been typed on an empty line, a carriage return followed by a line feed
runs the line-complete sequence twice.  The calls are: the echoes of the typed
characters; the echo of the carriage return, the line break, a drain loop on L and the
trailer; then the echo of the line feed, the line break, a second drain loop on L and a
second trailer.  Every line passed to the interpreter is L. -/
theorem C19_crlf_dispatches_twice (world : Nat → TxEnv) (hw : ∀ n, (world n).live)
    (cli : Interpreter σ) (fuel : Nat) (hfin : ∀ s line, ∃ k, k < fuel ∧ DrainsIn cli line s k)
    (st0 : Console σ) (hidx : st0.ucInputIndex = 0)
    (hbuf : st0.cInputString = List.replicate cmdMAX_INPUT_SIZE 0)
    (hlast : st0.cLastInputString.length = cmdMAX_INPUT_SIZE)
    (s : List Int) (hs : ∀ c ∈ s, c ≠ 10 ∧ c ≠ 13)
    (hne : refLine s ≠ []) (hlt : (refLine s).length < 50) :
    ∃ (st2 : Console σ) (k1 k2 : Nat), run world cli fuel (s ++ [13, 10]) st0 = .ok st2 ∧
      dispatched st2.uart.trace = dispatched st0.uart.trace ++
        List.replicate (k1 + 1) (refLine s) ++ List.replicate (k2 + 1) (refLine s) ∧
      calls st2.uart.trace = calls st0.uart.trace ++
        (s.map fun c => Event.uartTransfer [c] 1) ++
        [Event.uartTransfer [13] 1, Event.uartTransfer (lit "\r\n") 2] ++
        drainCalls cli (refLine s) st0.cli k1 ++
        [Event.uartTransfer pcEndOfOutputMessage 56] ++
        [Event.uartTransfer [10] 1, Event.uartTransfer (lit "\r\n") 2] ++
        drainCalls cli (refLine s) (cliAfter cli (refLine s) (k1 + 1) st0.cli) k2 ++
        [Event.uartTransfer pcEndOfOutputMessage 56] := by
  have hpr := foldl_refStep_printable s [] (by simp)
  have hnz : ∀ x ∈ refLine s, x ≠ 0 := fun x hx => by have := hpr x hx; omega
  have hnl : Event.uartTransfer pcNewLine (toU16 (strlen pcNewLine)) =
      Event.uartTransfer (lit "\r\n") 2 := by decide
  have htr : Event.uartTransfer pcEndOfOutputMessage (toU16 (strlen pcEndOfOutputMessage)) =
      Event.uartTransfer pcEndOfOutputMessage 56 := by decide
  obtain ⟨k1, hk1, hd1⟩ := hfin st0.cli (refLine s)
  obtain ⟨st1, e1, i1, i2, i3, i4, -, i6, i7, -⟩ := step_terminator_ok world hw cli fuel 13
    (Or.inr rfl) (holding (refLine s) (echoed world s st0)) (refLine s) k1
    (holding_input_length _ (le_of_lt hlt) _) (by simpa [holding] using hlast)
    (holding_pending _ hne hlt hpr _) (by simpa [holding] using hd1) hk1
  have hfit : (refLine s).length < st0.cLastInputString.length := by
    rw [hlast]; exact hlt
  have hlast1 : st1.cLastInputString.length = cmdMAX_INPUT_SIZE := by
    rw [i3]
    simp only [holding, echoed_last]
    rw [length_strcpy _ _ hfit, hlast]
  have hpend1 : pendingLine st1 = some (refLine s) := by
    unfold pendingLine
    rw [if_pos i1, i3]
    exact cstr_append_zero _ _ hnz
  obtain ⟨k2, hk2, hd2⟩ := hfin st1.cli (refLine s)
  obtain ⟨st2, e2, -, -, -, -, -, j6, j7, -⟩ := step_terminator_ok world hw cli fuel 10
    (Or.inl rfl) st1 (refLine s) k2 (by rw [i2]; simp) hlast1 hpend1 hd2 hk2
  refine ⟨st2, k1, k2, ?_, ?_, ?_⟩
  · rw [run_typed_then world hw cli fuel st0 hidx hbuf s hs]
    simp [run, e1, e2]
  · rw [j7, i7]
    simp [holding]
  · rw [j6, i6, i4, hnl, htr]
    simp [holding, echoed_calls]

/-- C19, witness: "help", carriage return, line feed. -/
theorem C19_crlf_dispatches_twice_witness :
    refLine (lit "help") = lit "help" ∧
    ∃ (st2 : Console Unit) (k1 k2 : Nat),
      run (fun _ => idealEnv) okInterpreter 1 (lit "help" ++ [13, 10]) (initial () uart0) =
        .ok st2 ∧
      dispatched st2.uart.trace = dispatched (initial () uart0).uart.trace ++
        List.replicate (k1 + 1) (refLine (lit "help")) ++
        List.replicate (k2 + 1) (refLine (lit "help")) ∧
      calls st2.uart.trace = calls (initial () uart0).uart.trace ++
        ((lit "help").map fun c => Event.uartTransfer [c] 1) ++
        [Event.uartTransfer [13] 1, Event.uartTransfer (lit "\r\n") 2] ++
        drainCalls okInterpreter (refLine (lit "help")) (initial () uart0).cli k1 ++
        [Event.uartTransfer pcEndOfOutputMessage 56] ++
        [Event.uartTransfer [10] 1, Event.uartTransfer (lit "\r\n") 2] ++
        drainCalls okInterpreter (refLine (lit "help"))
          (cliAfter okInterpreter (refLine (lit "help")) (k1 + 1) (initial () uart0).cli) k2 ++
        [Event.uartTransfer pcEndOfOutputMessage 56] :=
  ⟨by decide,
   C19_crlf_dispatches_twice (fun _ => idealEnv) idealEnv_live okInterpreter 1
    (okInterpreter_drains 1 (by decide)) (initial () uart0) rfl rfl (by decide) (lit "help")
    (by decide) (by decide) (by decide)⟩

/-- A terminator in a state whose pending line can be read: as soon as the echo and the
line break have returned, the interpreter is called at least once, and only with the
pending line, whether or not the drain loop finishes. -/
theorem step_terminator_dispatched_pending (world : Nat → TxEnv) (hw : ∀ n, (world n).live)
    (cli : Interpreter σ) (fuel : Nat) (hfuel : 0 < fuel) (t : Int) (ht : t = 10 ∨ t = 13)
    (st : Console σ) (line : List Int)
    (hin : st.cInputString.length = cmdMAX_INPUT_SIZE)
    (hlast : st.cLastInputString.length = cmdMAX_INPUT_SIZE)
    (hline : pendingLine st = some line) :
    ∃ m, 0 < m ∧ dispatched (step world cli fuel t st).state.uart.trace =
      dispatched st.uart.trace ++ List.replicate m line := by
  unfold step
  rw [transfer_ok world hw]
  simp only [andThen_ok, ht, if_true]
  unfold lineComplete
  rw [transfer_ok world hw]
  simp only [andThen_ok]
  obtain ⟨b, hb, hbl, -⟩ := repeatLast_ok
    (transfer world pcNewLine (toU16 (strlen pcNewLine)) (transfer world [t] 1 st).state).state
    line (by simpa using hin) (by simpa using hlast) (by simpa [pendingLine] using hline)
  rw [hb]
  simp only [andThen_ok]
  obtain ⟨-, -, -, m, hm, hdisp⟩ := drainLoop_state world cli line fuel
    { (transfer world pcNewLine (toU16 (strlen pcNewLine))
        (transfer world [t] 1 st).state).state with cInputString := b } hbl
  simp only [transfer_dispatched] at hdisp
  refine ⟨m, hm hfuel, ?_⟩
  cases hdl : drainLoop world cli fuel
      { (transfer world pcNewLine (toU16 (strlen pcNewLine))
          (transfer world [t] 1 st).state).state with cInputString := b } with
  | fault f st3 =>
    rw [hdl] at hdisp
    simpa using hdisp
  | ok st3 =>
    rw [hdl] at hdisp
    simp only [andThen_ok, state_ok] at hdisp ⊢
    cases strcpy st3.cLastInputString st3.cInputString with
    | none => simpa using hdisp
    | some b2 => simpa using hdisp

/-- C20 (empty line before the first dispatch).  First part: when no line has been
completed (`cLastInputString` is still all zero) a terminator received with index 0
makes at least one interpreter call, every call with the empty line, and
`cLastInputString` is all zero afterwards.  Second part: in every state whose pending
line can be read, a terminator results in at least one interpreter call, with that
line.  Both assume that the echo and the line break return and fuel for one call. -/
theorem C20_empty_line_first (world : Nat → TxEnv) (hw : ∀ n, (world n).live)
    (cli : Interpreter σ) (fuel : Nat) (hfuel : 0 < fuel) (t : Int) (ht : t = 10 ∨ t = 13) :
    (∀ st : Console σ, st.ucInputIndex = 0 → st.cInputString.length = cmdMAX_INPUT_SIZE →
      st.cLastInputString = List.replicate cmdMAX_INPUT_SIZE 0 →
      (∃ m, 0 < m ∧ dispatched (step world cli fuel t st).state.uart.trace =
        dispatched st.uart.trace ++ List.replicate m []) ∧
      (step world cli fuel t st).state.cLastInputString = List.replicate cmdMAX_INPUT_SIZE 0) ∧
    (∀ (st : Console σ) (line : List Int), st.cInputString.length = cmdMAX_INPUT_SIZE →
      st.cLastInputString.length = cmdMAX_INPUT_SIZE → pendingLine st = some line →
      ∃ m, 0 < m ∧ dispatched (step world cli fuel t st).state.uart.trace =
        dispatched st.uart.trace ++ List.replicate m line) := by
  constructor
  · intro st hidx hin hlast
    have hpend : pendingLine st = some [] := by
      unfold pendingLine
      rw [if_pos hidx, hlast]
      exact cstr_append_zero [] (List.replicate 49 0) (by simp)
    refine ⟨step_terminator_dispatched_pending world hw cli fuel hfuel t ht st [] hin
      (by rw [hlast]; simp) hpend, ?_⟩
    rcases outcome_cases (step world cli fuel t st) with e | ⟨f, e⟩
    · obtain ⟨line, m, h1, -, -, -, -, h6, -⟩ := step_terminator_inv world cli fuel t ht st _ e
      rw [hpend] at h1
      simp only [Option.some.injEq] at h1
      subst h1
      rw [h6, hlast]
      rfl
    · have hno : (step world cli fuel t st).isOk = false := by rw [e]; rfl
      rw [step_terminator_fault_last world hw cli fuel t ht st hno, hlast]
  · intro st line hin hlast hline
    exact step_terminator_dispatched_pending world hw cli fuel hfuel t ht st line hin hlast hline

/-- C20, witness: a carriage return as the very first character. -/
theorem C20_empty_line_first_witness :
    (∃ m, 0 < m ∧
      dispatched (step (fun _ => idealEnv) okInterpreter 1 13 (initial () uart0)).state.uart.trace =
        dispatched (initial () uart0).uart.trace ++ List.replicate m []) ∧
    (step (fun _ => idealEnv) okInterpreter 1 13 (initial () uart0)).state.cLastInputString =
      List.replicate cmdMAX_INPUT_SIZE 0 :=
  (C20_empty_line_first (fun _ => idealEnv) idealEnv_live okInterpreter 1 (by decide) 13
    (Or.inr rfl)).1 (initial () uart0) rfl (by simp [initial]) rfl


/-! ### Task start and the calls of the loop -/

theorem loopCall_process (cli : Interpreter σ) (line : List Int) :
    LoopCall cli (Event.processCommand line) := Or.inl ⟨line, rfl⟩

theorem loopCall_echo (cli : Interpreter σ) (c : Int) :
    LoopCall cli (Event.uartTransfer [c] 1) := Or.inr (Or.inl ⟨c, rfl⟩)

theorem loopCall_newline (cli : Interpreter σ) :
    LoopCall cli (Event.uartTransfer pcNewLine (toU16 (strlen pcNewLine))) :=
  Or.inr (Or.inr (Or.inl rfl))

theorem loopCall_trailer (cli : Interpreter σ) :
    LoopCall cli
      (Event.uartTransfer pcEndOfOutputMessage (toU16 (strlen pcEndOfOutputMessage))) :=
  Or.inr (Or.inr (Or.inr (Or.inl rfl)))

theorem loopCall_chunk (cli : Interpreter σ) (s : σ) (line : List Int) :
    LoopCall cli (Event.uartTransfer (cli s line).out (toU16 (strlen (cli s line).out))) :=
  Or.inr (Or.inr (Or.inr (Or.inr ⟨s, line, rfl⟩)))

/-- The calls of the drain loop are interpreter calls and transfers of the output
buffer. -/
theorem drainLoop_loopCalls (world : Nat → TxEnv) (cli : Interpreter σ) (fuel : Nat)
    (st : Console σ) :
    ∃ evs, calls (drainLoop world cli fuel st).state.uart.trace = calls st.uart.trace ++ evs ∧
      ∀ e ∈ evs, LoopCall cli e := by
  induction fuel generalizing st with
  | zero => exact ⟨[], by simp [drainLoop], by simp⟩
  | succ fuel ih =>
    cases hline : cstr st.cInputString with
    | none => exact ⟨[], by simp [drainLoop, hline], by simp⟩
    | some line =>
      have hpair : ∀ e ∈ [Event.processCommand line, Event.uartTransfer (cli st.cli line).out
          (toU16 (strlen (cli st.cli line).out))], LoopCall cli e := by
        intro e he
        simp only [List.mem_cons, List.mem_singleton, List.not_mem_nil, or_false] at he
        rcases he with he | he
        · rw [he]; exact loopCall_process cli line
        · rw [he]; exact loopCall_chunk cli st.cli line
      simp only [drainLoop, hline]
      rcases outcome_cases (transfer world (cli st.cli line).out
          (toU16 (strlen (cli st.cli line).out))
          { st with cli := (cli st.cli line).next,
                    uart := st.uart.log (.processCommand line) }) with e1 | ⟨f, e1⟩
      · rw [e1]
        simp only [andThen_ok]
        split_ifs
        · obtain ⟨evs, h, hall⟩ := ih (transfer world (cli st.cli line).out
            (toU16 (strlen (cli st.cli line).out))
            { st with cli := (cli st.cli line).next,
                      uart := st.uart.log (.processCommand line) }).state
          refine ⟨[Event.processCommand line, Event.uartTransfer (cli st.cli line).out
            (toU16 (strlen (cli st.cli line).out))] ++ evs, ?_, ?_⟩
          · rw [h]; simp [Uart.log, calls_append, calls]
          · intro e he
            rcases List.mem_append.mp he with he | he
            · exact hpair e he
            · exact hall e he
        · exact ⟨_, by simp [Uart.log, calls_append, calls], hpair⟩
      · rw [e1]
        exact ⟨_, by simp [Uart.log, calls_append, calls], hpair⟩

/-- The calls of the branch for a terminator. -/
theorem lineComplete_loopCalls (world : Nat → TxEnv) (cli : Interpreter σ) (fuel : Nat)
    (st : Console σ) :
    ∃ evs, calls (lineComplete world cli fuel st).state.uart.trace =
        calls st.uart.trace ++ evs ∧ ∀ e ∈ evs, LoopCall cli e := by
  unfold lineComplete
  have hnl : ∀ e ∈ [Event.uartTransfer pcNewLine (toU16 (strlen pcNewLine))],
      LoopCall cli e := by
    intro e he
    rw [List.mem_singleton.mp he]
    exact loopCall_newline cli
  rcases outcome_cases (transfer world pcNewLine (toU16 (strlen pcNewLine)) st) with e1 | ⟨f, e1⟩
  swap
  · rw [e1]
    exact ⟨_, by simp, hnl⟩
  rw [e1]
  simp only [andThen_ok]
  have h2 := repeatLast_uart (transfer world pcNewLine (toU16 (strlen pcNewLine)) st).state
  rcases outcome_cases (repeatLast (transfer world pcNewLine (toU16 (strlen pcNewLine)) st).state)
    with e2 | ⟨f, e2⟩
  swap
  · rw [e2]
    exact ⟨_, by simp [h2], hnl⟩
  rw [e2]
  simp only [andThen_ok]
  obtain ⟨evs, h3, hall⟩ := drainLoop_loopCalls world cli fuel
    (repeatLast (transfer world pcNewLine (toU16 (strlen pcNewLine)) st).state).state
  have hboth : ∀ e ∈ [Event.uartTransfer pcNewLine (toU16 (strlen pcNewLine))] ++ evs,
      LoopCall cli e := by
    intro e he
    rcases List.mem_append.mp he with he | he
    · exact hnl e he
    · exact hall e he
  rcases outcome_cases (drainLoop world cli fuel
    (repeatLast (transfer world pcNewLine (toU16 (strlen pcNewLine)) st).state).state)
    with e3 | ⟨f, e3⟩
  swap
  · rw [e3]
    exact ⟨_, by simp [h3, h2], hboth⟩
  rw [e3]
  simp only [andThen_ok]
  cases strcpy (drainLoop world cli fuel
      (repeatLast (transfer world pcNewLine (toU16 (strlen pcNewLine)) st).state).state
      ).state.cLastInputString
    (drainLoop world cli fuel
      (repeatLast (transfer world pcNewLine (toU16 (strlen pcNewLine)) st).state).state
      ).state.cInputString with
  | none => exact ⟨_, by simp [h3, h2], hboth⟩
  | some b =>
    refine ⟨[Event.uartTransfer pcNewLine (toU16 (strlen pcNewLine))] ++ evs ++
      [Event.uartTransfer pcEndOfOutputMessage (toU16 (strlen pcEndOfOutputMessage))], ?_, ?_⟩
    · simp [h3, h2]
    · intro e he
      rcases List.mem_append.mp he with he | he
      · exact hboth e he
      · rw [List.mem_singleton.mp he]
        exact loopCall_trailer cli

/-- The calls of one iteration of the task loop. -/
theorem step_loopCalls (world : Nat → TxEnv) (cli : Interpreter σ) (fuel : Nat) (c : Int)
    (st : Console σ) :
    ∃ evs, calls (step world cli fuel c st).state.uart.trace = calls st.uart.trace ++ evs ∧
      ∀ e ∈ evs, LoopCall cli e := by
  unfold step
  have hecho : ∀ e ∈ [Event.uartTransfer [c] 1], LoopCall cli e := by
    intro e he
    rw [List.mem_singleton.mp he]
    exact loopCall_echo cli c
  rcases outcome_cases (transfer world [c] 1 st) with e1 | ⟨f, e1⟩
  swap
  · rw [e1]
    exact ⟨_, by simp, hecho⟩
  rw [e1]
  simp only [andThen_ok]
  split_ifs
  · obtain ⟨evs, h, hall⟩ := lineComplete_loopCalls world cli fuel (transfer world [c] 1 st).state
    refine ⟨[Event.uartTransfer [c] 1] ++ evs, by simp [h], ?_⟩
    intro e he
    rcases List.mem_append.mp he with he | he
    · exact hecho e he
    · exact hall e he
  · exact ⟨_, by rw [lineEdit_uart]; simp, hecho⟩

/-- The calls of the task loop. -/
theorem run_loopCalls (world : Nat → TxEnv) (cli : Interpreter σ) (fuel : Nat) (input : List Int)
    (st : Console σ) :
    ∃ evs, calls (run world cli fuel input st).state.uart.trace = calls st.uart.trace ++ evs ∧
      ∀ e ∈ evs, LoopCall cli e := by
  induction input generalizing st with
  | nil => exact ⟨[], by simp [run], by simp⟩
  | cons c cs ih =>
    simp only [run]
    obtain ⟨ev1, h1, hall1⟩ := step_loopCalls world cli fuel c st
    rcases outcome_cases (step world cli fuel c st) with e1 | ⟨f, e1⟩
    · rw [e1]
      simp only [andThen_ok]
      obtain ⟨ev2, h2, hall2⟩ := ih (step world cli fuel c st).state
      refine ⟨ev1 ++ ev2, by rw [h2, h1]; simp, ?_⟩
      intro e he
      rcases List.mem_append.mp he with he | he
      · exact hall1 e he
      · exact hall2 e he
    · rw [e1]
      exact ⟨ev1, by simpa using h1, hall1⟩


set_option maxRecDepth 100000 in
theorem decimal_length_le : ∀ n, n < 256 → (decimal n).length ≤ 3 := by decide

set_option maxRecDepth 100000 in
theorem decimal_nonzero : ∀ n, n < 256 → (0 : Int) ∉ decimal n := by decide

theorem strlen_eq_length (l : List Int) (h : ∀ x ∈ l, x ≠ 0) : strlen l = l.length := by
  unfold strlen
  congr 1
  rw [List.takeWhile_eq_self_iff]
  intro x hx
  simpa using h x hx

theorem toU8_of_lt (n : Nat) (h : n < 256) : toU8 n = n := Nat.mod_eq_of_lt h

theorem bannerText_length_le (major minor : Nat) (hM : major < 256) (hm : minor < 256) :
    (bannerText major minor).length ≤ 99 := by
  have h1 := decimal_length_le major hM
  have h2 := decimal_length_le minor hm
  have hw : pcWelcomeMessage.length = 69 := by decide
  have hf : (lit "Firmware Version: ").length = 18 := by decide
  have hd : (lit ".").length = 1 := by decide
  have he : (lit "\r\n\r\n>").length = 5 := by decide
  unfold bannerText
  rw [toU8_of_lt major hM, toU8_of_lt minor hm]
  simp only [List.length_append, hw, hf, hd, he]
  omega

theorem bannerText_nonzero (major minor : Nat) (hM : major < 256) (hm : minor < 256) :
    ∀ x ∈ bannerText major minor, x ≠ 0 := by
  have h1 := decimal_nonzero major hM
  have h2 := decimal_nonzero minor hm
  have hw : (0 : Int) ∉ pcWelcomeMessage := by decide
  have hf : (0 : Int) ∉ lit "Firmware Version: " := by decide
  have hd : (0 : Int) ∉ lit "." := by decide
  have he : (0 : Int) ∉ lit "\r\n\r\n>" := by decide
  unfold bannerText
  rw [toU8_of_lt major hM, toU8_of_lt minor hm]
  intro x hx h0
  subst h0
  simp only [List.mem_append] at hx
  tauto

/-- C16 (start-up banner): for version numbers in 0..255 the formatted text has at most
99 characters, so `snprintf` with the 100-byte array leaves all of it: the welcome
message, "Firmware Version: ", the major number in decimal, ".", the minor number in
decimal and "\r\n\r\n>".  The statements before the loop make exactly one call, the
transfer of that text with its length, and when that call obtains the mutex and is
served exactly that text is sent.  Every later call of the task is a call of the loop:
an interpreter call, an echo, the line break, the trailer or an interpreter chunk. -/
theorem C16_startup_banner (world : Nat → TxEnv) (cli : Interpreter σ) (fuel : Nat)
    (major minor : Nat) (hM : major < 256) (hm : minor < 256) (input : List Int) (s0 : σ)
    (u : Uart) :
    (bannerText major minor).length ≤ 99 ∧
    snprintf 100 (bannerText major minor) =
      pcWelcomeMessage ++ lit "Firmware Version: " ++ decimal major ++ lit "." ++
        decimal minor ++ lit "\r\n\r\n>" ∧
    calls (taskStart world major minor (initial s0 u)).state.uart.trace =
      calls u.trace ++ [Event.uartTransfer (snprintf 100 (bannerText major minor))
        (snprintf 100 (bannerText major minor)).length] ∧
    ((world u.nTransfers).sends →
      wire (taskStart world major minor (initial s0 u)).state.uart.trace =
        wire u.trace ++ snprintf 100 (bannerText major minor)) ∧
    (∃ rest, calls (prvUARTCommandConsoleTask world cli fuel major minor input s0 u).state.uart.trace =
        calls u.trace ++ Event.uartTransfer (snprintf 100 (bannerText major minor))
          (snprintf 100 (bannerText major minor)).length :: rest ∧
      ∀ e ∈ rest, LoopCall cli e) := by
  have hlen := bannerText_length_le major minor hM hm
  have hsn : snprintf 100 (bannerText major minor) = bannerText major minor :=
    List.take_of_length_le hlen
  have hstr : toU16 (strlen (bannerText major minor)) = (bannerText major minor).length := by
    rw [strlen_eq_length _ (bannerText_nonzero major minor hM hm)]
    exact Nat.mod_eq_of_lt (by omega)
  have hstart : calls (taskStart world major minor (initial s0 u)).state.uart.trace =
      calls u.trace ++ [Event.uartTransfer (snprintf 100 (bannerText major minor))
        (snprintf 100 (bannerText major minor)).length] := by
    unfold taskStart
    simp only [hsn, hstr, transfer_calls]
    rfl
  refine ⟨hlen, ?_, hstart, ?_, ?_⟩
  · rw [hsn]
    unfold bannerText
    rw [toU8_of_lt major hM, toU8_of_lt minor hm]
  · intro hs
    unfold taskStart
    simp only [hsn, hstr]
    rw [transfer_state]
    show wire (UART_Transfer (world u.nTransfers) (bannerText major minor)
      (bannerText major minor).length u).state.trace = _
    rw [UART_Transfer_wire _ _ _ _ hs, List.take_length]
  · unfold prvUARTCommandConsoleTask
    rcases outcome_cases (taskStart world major minor (initial s0 u)) with e1 | ⟨f, e1⟩
    · rw [e1]
      simp only [andThen_ok]
      obtain ⟨rest, h, hall⟩ := run_loopCalls world cli fuel input
        (taskStart world major minor (initial s0 u)).state
      exact ⟨rest, by rw [h, hstart]; simp, hall⟩
    · rw [e1]
      exact ⟨[], by simpa using hstart, by simp⟩

/-- C16, witness: version 1.12. -/
theorem C16_startup_banner_witness :
    snprintf 100 (bannerText 1 12) =
      lit ("\r\nStarting LiPow.\r\nType Help to view a list of registered commands.\r\n" ++
        "Firmware Version: 1.12\r\n\r\n>") ∧
    (bannerText 1 12).length ≤ 99 :=
  ⟨by decide,
   (C16_startup_banner (fun _ => idealEnv) okInterpreter 1 1 12 (by decide) (by decide)
    (lit "help\r") () uart0).1⟩


/-! ### Two runs in different environments -/

theorem txCount_append (xs ys : List Event) : txCount (xs ++ ys) = txCount xs + txCount ys := by
  induction xs with
  | nil => simp [txCount]
  | cons e es ih =>
    cases e with
    | uartTransfer p n =>
      show txCount (es ++ ys) + 1 = txCount es + 1 + txCount ys
      rw [ih]; omega
    | _ => simpa [txCount] using ih

theorem sentBytes_append (take : Nat → Bool) (i : Nat) (xs ys : List Event) :
    sentBytes take i (xs ++ ys) = sentBytes take i xs ++ sentBytes take (i + txCount xs) ys := by
  induction xs generalizing i with
  | nil => simp [sentBytes, txCount]
  | cons e es ih =>
    cases e with
    | uartTransfer p n =>
      have hi : i + 1 + txCount es = i + (txCount es + 1) := by omega
      show (if take i then p.take n else []) ++ sentBytes take (i + 1) (es ++ ys) =
        ((if take i then p.take n else []) ++ sentBytes take (i + 1) es) ++
          sentBytes take (i + (txCount es + 1)) ys
      rw [ih, hi, List.append_assoc]
    | _ => simpa [sentBytes, txCount] using ih i

theorem dispatched_calls (tr : List Event) : dispatched (calls tr) = dispatched tr := by
  induction tr with
  | nil => rfl
  | cons e es ih => cases e <;> simp [calls, dispatched, ih]

/-- In a live environment `UART_Transfer` sends its block if it obtains the mutex and
nothing otherwise. -/
theorem UART_Transfer_wire_live (env : TxEnv) (p : List Int) (n : Nat) (u : Uart)
    (h : env.live) :
    wire (UART_Transfer env p n u).state.trace =
      wire u.trace ++ (if env.take then p.take n else []) := by
  cases htake : env.take with
  | true =>
    have hs : env.sends := by
      rcases h with h | h
      · rw [htake] at h; cases h
      · exact ⟨htake, h⟩
    simp [UART_Transfer_wire env p n u hs]
  | false =>
    unfold UART_Transfer
    simp [htake, wire_append, wire]

theorem reaches_refl (world : Nat → TxEnv) (st : Console σ) : Reaches world st st [] := by
  simp [Reaches, txCount, sentBytes]

theorem reaches_trans (world : Nat → TxEnv) (a b c : Console σ) (xs ys : List Event)
    (h1 : Reaches world a b xs) (h2 : Reaches world b c ys) : Reaches world a c (xs ++ ys) := by
  obtain ⟨a1, a2, a3⟩ := h1
  obtain ⟨b1, b2, b3⟩ := h2
  refine ⟨by rw [b1, a1, List.append_assoc], by rw [b2, a2, txCount_append]; omega, ?_⟩
  rw [b3, a3, a2, sentBytes_append, List.append_assoc]

theorem reaches_uart_eq (world : Nat → TxEnv) (a b c : Console σ) (xs : List Event)
    (h1 : Reaches world a b xs) (h : c.uart = b.uart) : Reaches world a c xs := by
  unfold Reaches at h1 ⊢
  rw [h]
  exact h1

theorem reaches_transfer (world : Nat → TxEnv) (hw : ∀ n, (world n).live) (p : List Int)
    (n : Nat) (st : Console σ) :
    Reaches world st (transfer world p n st).state [Event.uartTransfer p n] := by
  refine ⟨transfer_calls world p n st, by simp [txCount], ?_⟩
  rw [transfer_state]
  show wire (UART_Transfer (world st.uart.nTransfers) p n st.uart).state.trace = _
  rw [UART_Transfer_wire_live _ _ _ _ (hw _)]
  simp [sentBytes]

theorem sameTask_refl (a : Console σ) : SameTask a a := ⟨rfl, rfl, rfl, rfl⟩

theorem sameTask_eq (a b : Console σ) (h : SameTask a b) : b = { a with uart := b.uart } := by
  obtain ⟨h1, h2, h3, h4⟩ := h
  cases a
  cases b
  simp only at h1 h2 h3 h4
  simp [h1, h2, h3, h4]

/-- Agreement is kept by sequential composition. -/
theorem agree_andThen (w1 w2 : Nat → TxEnv) (st1 st2 : Console σ)
    (o1 o2 : Outcome (Console σ)) (k1 k2 : Console σ → Outcome (Console σ))
    (hA : Agree w1 w2 st1 st2 o1 o2)
    (hB : ∀ s1 s2, o1 = .ok s1 → o2 = .ok s2 → SameTask s1 s2 →
      Agree w1 w2 s1 s2 (k1 s1) (k2 s2)) :
    Agree w1 w2 st1 st2 (o1.andThen k1) (o2.andThen k2) := by
  obtain ⟨hok, hsame, cs, r1, r2⟩ := hA
  cases o1 with
  | fault f1 s1 =>
    cases o2 with
    | fault f2 s2 => exact ⟨rfl, hsame, cs, r1, r2⟩
    | ok s2 => simp at hok
  | ok s1 =>
    cases o2 with
    | fault f2 s2 => simp at hok
    | ok s2 =>
      obtain ⟨hok2, hsame2, cs2, q1, q2⟩ := hB s1 s2 rfl rfl hsame
      exact ⟨hok2, hsame2, cs ++ cs2, reaches_trans w1 _ _ _ _ _ r1 q1,
        reaches_trans w2 _ _ _ _ _ r2 q2⟩

theorem agree_transfer (w1 w2 : Nat → TxEnv) (h1 : ∀ n, (w1 n).live) (h2 : ∀ n, (w2 n).live)
    (p : List Int) (n : Nat) (st1 st2 : Console σ) (hs : SameTask st1 st2) :
    Agree w1 w2 st1 st2 (transfer w1 p n st1) (transfer w2 p n st2) := by
  refine ⟨?_, ?_, [Event.uartTransfer p n], reaches_transfer w1 h1 p n st1,
    reaches_transfer w2 h2 p n st2⟩
  · rw [transfer_ok w1 h1, transfer_ok w2 h2]; rfl
  · obtain ⟨a, b, c, d⟩ := hs
    exact ⟨by simpa using a, by simpa using b, by simpa using c, by simpa using d⟩


theorem agree_pure (w1 w2 : Nat → TxEnv) (st1 st2 : Console σ) (o1 o2 : Outcome (Console σ))
    (hok : o1.isOk = o2.isOk) (hsame : SameTask o1.state o2.state)
    (hu1 : o1.state.uart = st1.uart) (hu2 : o2.state.uart = st2.uart) :
    Agree w1 w2 st1 st2 o1 o2 :=
  ⟨hok, hsame, [], reaches_uart_eq w1 _ _ _ _ (reaches_refl w1 st1) hu1,
    reaches_uart_eq w2 _ _ _ _ (reaches_refl w2 st2) hu2⟩

theorem agree_prepend (w1 w2 : Nat → TxEnv) (st1 st2 a1 a2 : Console σ) (xs : List Event)
    (o1 o2 : Outcome (Console σ)) (r1 : Reaches w1 st1 a1 xs) (r2 : Reaches w2 st2 a2 xs)
    (h : Agree w1 w2 a1 a2 o1 o2) : Agree w1 w2 st1 st2 o1 o2 := by
  obtain ⟨hok, hsame, cs, q1, q2⟩ := h
  exact ⟨hok, hsame, xs ++ cs, reaches_trans w1 _ _ _ _ _ r1 q1, reaches_trans w2 _ _ _ _ _ r2 q2⟩

theorem reaches_log (world : Nat → TxEnv) (st : Console σ) (s : σ) (line : List Int) :
    Reaches world st { st with cli := s, uart := st.uart.log (.processCommand line) }
      [Event.processCommand line] := by
  simp [Reaches, Uart.log, calls_append, calls, wire_append, wire, txCount, sentBytes]

theorem agree_lineEdit (w1 w2 : Nat → TxEnv) (c : Int) (st1 st2 : Console σ)
    (hs : SameTask st1 st2) : Agree w1 w2 st1 st2 (lineEdit c st1) (lineEdit c st2) := by
  have h := sameTask_eq st1 st2 hs
  generalize st2.uart = u2 at h
  subst h
  refine agree_pure w1 w2 _ _ _ _ ?_ ?_ (lineEdit_uart c _) (lineEdit_uart c _)
  · unfold lineEdit storeInput
    split_ifs <;> rfl
  · unfold lineEdit storeInput
    split_ifs <;> exact ⟨rfl, rfl, rfl, rfl⟩

theorem agree_repeatLast (w1 w2 : Nat → TxEnv) (st1 st2 : Console σ) (hs : SameTask st1 st2) :
    Agree w1 w2 st1 st2 (repeatLast st1) (repeatLast st2) := by
  have h := sameTask_eq st1 st2 hs
  generalize st2.uart = u2 at h
  subst h
  refine agree_pure w1 w2 _ _ _ _ ?_ ?_ (repeatLast_uart _) (repeatLast_uart _)
  · unfold repeatLast
    split_ifs
    · cases strcpy st1.cInputString st1.cLastInputString <;> rfl
    · rfl
  · unfold repeatLast
    split_ifs
    · cases strcpy st1.cInputString st1.cLastInputString <;> exact ⟨rfl, rfl, rfl, rfl⟩
    · exact ⟨rfl, rfl, rfl, rfl⟩

/-- The drain loop agrees in two live environments. -/
theorem agree_drainLoop (w1 w2 : Nat → TxEnv) (h1 : ∀ n, (w1 n).live) (h2 : ∀ n, (w2 n).live)
    (cli : Interpreter σ) (fuel : Nat) (st1 st2 : Console σ) (hs : SameTask st1 st2) :
    Agree w1 w2 st1 st2 (drainLoop w1 cli fuel st1) (drainLoop w2 cli fuel st2) := by
  induction fuel generalizing st1 st2 with
  | zero => exact agree_pure w1 w2 _ _ _ _ rfl hs rfl rfl
  | succ fuel ih =>
    have hc : cstr st2.cInputString = cstr st1.cInputString := by rw [hs.2.1]
    cases hline : cstr st1.cInputString with
    | none =>
      rw [hline] at hc
      simp only [drainLoop, hline, hc]
      exact agree_pure w1 w2 _ _ _ _ rfl hs rfl rfl
    | some line =>
      rw [hline] at hc
      simp only [drainLoop, hline, hc, ← hs.2.2.2]
      refine agree_prepend w1 w2 st1 st2 _ _ [Event.processCommand line] _ _
        (reaches_log w1 st1 (cli st1.cli line).next line)
        (reaches_log w2 st2 (cli st1.cli line).next line) ?_
      refine agree_andThen w1 w2 _ _ _ _ _ _ (agree_transfer w1 w2 h1 h2 _ _ _ _
        ⟨hs.1, hs.2.1, hs.2.2.1, rfl⟩) ?_
      intro s1 s2 _ _ hs12
      split_ifs
      · exact ih s1 s2 hs12
      · exact agree_pure w1 w2 _ _ _ _ rfl hs12 rfl rfl

/-- The branch for a terminator agrees in two live environments. -/
theorem agree_lineComplete (w1 w2 : Nat → TxEnv) (h1 : ∀ n, (w1 n).live)
    (h2 : ∀ n, (w2 n).live) (cli : Interpreter σ) (fuel : Nat) (st1 st2 : Console σ)
    (hs : SameTask st1 st2) :
    Agree w1 w2 st1 st2 (lineComplete w1 cli fuel st1) (lineComplete w2 cli fuel st2) := by
  unfold lineComplete
  refine agree_andThen w1 w2 _ _ _ _ _ _ (agree_transfer w1 w2 h1 h2 _ _ _ _ hs) ?_
  intro a1 a2 _ _ ha
  refine agree_andThen w1 w2 _ _ _ _ _ _ (agree_repeatLast w1 w2 a1 a2 ha) ?_
  intro b1 b2 _ _ hb
  refine agree_andThen w1 w2 _ _ _ _ _ _ (agree_drainLoop w1 w2 h1 h2 cli fuel b1 b2 hb) ?_
  intro c1 c2 _ _ hcc
  rw [← hcc.2.1, ← hcc.2.2.1]
  cases strcpy c1.cLastInputString c1.cInputString with
  | none => exact agree_pure w1 w2 _ _ _ _ rfl hcc rfl rfl
  | some b =>
    have hmid : SameTask
        { c1 with cLastInputString := b, ucInputIndex := 0,
                  cInputString := List.replicate cmdMAX_INPUT_SIZE 0 }
        { c2 with cLastInputString := b, ucInputIndex := 0,
                  cInputString := List.replicate cmdMAX_INPUT_SIZE 0 } :=
      ⟨rfl, rfl, rfl, hcc.2.2.2⟩
    have hag := agree_transfer w1 w2 h1 h2 pcEndOfOutputMessage
      (toU16 (strlen pcEndOfOutputMessage)) _ _ hmid
    obtain ⟨hok, hsame, cs, q1, q2⟩ := hag
    exact ⟨hok, hsame, cs, q1, q2⟩

/-- One iteration of the task loop agrees in two live environments. -/
theorem agree_step (w1 w2 : Nat → TxEnv) (h1 : ∀ n, (w1 n).live) (h2 : ∀ n, (w2 n).live)
    (cli : Interpreter σ) (fuel : Nat) (c : Int) (st1 st2 : Console σ) (hs : SameTask st1 st2) :
    Agree w1 w2 st1 st2 (step w1 cli fuel c st1) (step w2 cli fuel c st2) := by
  unfold step
  refine agree_andThen w1 w2 _ _ _ _ _ _ (agree_transfer w1 w2 h1 h2 _ _ _ _ hs) ?_
  intro a1 a2 _ _ ha
  split_ifs
  · exact agree_lineComplete w1 w2 h1 h2 cli fuel a1 a2 ha
  · exact agree_lineEdit w1 w2 c a1 a2 ha

/-- The task loop agrees in two live environments. -/
theorem agree_run (w1 w2 : Nat → TxEnv) (h1 : ∀ n, (w1 n).live) (h2 : ∀ n, (w2 n).live)
    (cli : Interpreter σ) (fuel : Nat) (input : List Int) (st1 st2 : Console σ)
    (hs : SameTask st1 st2) :
    Agree w1 w2 st1 st2 (run w1 cli fuel input st1) (run w2 cli fuel input st2) := by
  induction input generalizing st1 st2 with
  | nil => exact agree_pure w1 w2 _ _ _ _ rfl hs rfl rfl
  | cons c cs ih =>
    simp only [run]
    refine agree_andThen w1 w2 _ _ _ _ _ _ (agree_step w1 w2 h1 h2 cli fuel c st1 st2 hs) ?_
    intro a1 a2 _ _ ha
    exact ih a1 a2 ha


theorem lossyWorld_live : ∀ n, (lossyWorld n).live := by
  intro n
  unfold lossyWorld
  split_ifs
  · exact Or.inr ⟨by decide, by decide⟩
  · exact Or.inl rfl

/-- C17 (output drops do not affect editing or dispatch): two runs of the task loop on
the same input, from the same state and with the same interpreter, in two environments
in which every `UART_Transfer` call returns but different calls may fail to obtain the
mutex.  Both complete or both stop, with the same index, the same two arrays and the
same interpreter state; they make the same calls `cs` (the same interpreter calls with
the same lines, the same transfers).  Only the bytes sent differ: in each run they are
the blocks of `cs` whose call obtained the mutex, in call order, so the stream of a run
with drops is the stream without drops with the dropped blocks removed. -/
theorem C17_drops_do_not_affect_editing (w1 w2 : Nat → TxEnv) (h1 : ∀ n, (w1 n).live)
    (h2 : ∀ n, (w2 n).live) (cli : Interpreter σ) (fuel : Nat) (input : List Int)
    (st : Console σ) :
    (run w1 cli fuel input st).isOk = (run w2 cli fuel input st).isOk ∧
    (run w1 cli fuel input st).state.ucInputIndex =
      (run w2 cli fuel input st).state.ucInputIndex ∧
    (run w1 cli fuel input st).state.cInputString =
      (run w2 cli fuel input st).state.cInputString ∧
    (run w1 cli fuel input st).state.cLastInputString =
      (run w2 cli fuel input st).state.cLastInputString ∧
    (run w1 cli fuel input st).state.cli = (run w2 cli fuel input st).state.cli ∧
    dispatched (run w1 cli fuel input st).state.uart.trace =
      dispatched (run w2 cli fuel input st).state.uart.trace ∧
    ∃ cs, calls (run w1 cli fuel input st).state.uart.trace = calls st.uart.trace ++ cs ∧
      calls (run w2 cli fuel input st).state.uart.trace = calls st.uart.trace ++ cs ∧
      wire (run w1 cli fuel input st).state.uart.trace = wire st.uart.trace ++
        sentBytes (fun i => (w1 i).take) st.uart.nTransfers cs ∧
      wire (run w2 cli fuel input st).state.uart.trace = wire st.uart.trace ++
        sentBytes (fun i => (w2 i).take) st.uart.nTransfers cs := by
  obtain ⟨hok, ⟨s1, s2, s3, s4⟩, cs, ⟨a1, -, a3⟩, ⟨b1, -, b3⟩⟩ :=
    agree_run w1 w2 h1 h2 cli fuel input st st (sameTask_refl st)
  refine ⟨hok, s1, s2, s3, s4, ?_, cs, a1, b1, a3, b3⟩
  rw [← dispatched_calls (run w1 cli fuel input st).state.uart.trace,
    ← dispatched_calls (run w2 cli fuel input st).state.uart.trace, a1, b1]

/-- C17, witness: the input "hi", carriage return, carriage return, in an environment
without drops and in one where every second transfer is dropped. -/
theorem C17_drops_do_not_affect_editing_witness :
    (run (fun _ => idealEnv) okInterpreter 1 (lit "hi\r\r") (initial () uart0)).state.cLastInputString =
      (run lossyWorld okInterpreter 1 (lit "hi\r\r") (initial () uart0)).state.cLastInputString ∧
    dispatched (run (fun _ => idealEnv) okInterpreter 1 (lit "hi\r\r")
        (initial () uart0)).state.uart.trace =
      dispatched (run lossyWorld okInterpreter 1 (lit "hi\r\r")
        (initial () uart0)).state.uart.trace :=
  ⟨(C17_drops_do_not_affect_editing (fun _ => idealEnv) lossyWorld idealEnv_live
      lossyWorld_live okInterpreter 1 (lit "hi\r\r") (initial () uart0)).2.2.2.1,
   (C17_drops_do_not_affect_editing (fun _ => idealEnv) lossyWorld idealEnv_live
      lossyWorld_live okInterpreter 1 (lit "hi\r\r") (initial () uart0)).2.2.2.2.2.1⟩

end Claims

end UARTCommandConsole
